import Mathlib

/-!
# Verification of the `dev-cache` project cache scanner

This file is a shallow embedding, in Lean 4, of the directory-tree scanner
implemented in `dev-cache/main.go` of the `cache-cleaner` repository, together
with theorems that settle the specification claims about it.

Modelling conventions:

* Go strings (directory names, patterns, language names) are modelled as
  `List Char`; Go's `strings.HasPrefix`, `HasSuffix`, `TrimSuffix`, … become
  the corresponding `List` operations.
* A filesystem path is the list of name segments relative to the scan root;
  `[]` is the scan root itself.  A directory at depth 0 in the scanner's
  terminology (immediate child of the root) is a path of length 1; the Go
  code's `depth` equals `path.length - 1`.
* The filesystem is a finite rose tree (`FSEntry`); an unreadable directory
  carries a flag, and reading it behaves like Go's failing `os.ReadDir`.
* Go maps used as scan state (`langCache`, `depth0NoLang`, `depth0Scanned`,
  `findingsByPath`, `excludedDirs`) become association lists / list sets with
  first-match lookup; prepending a binding models Go's overwriting store.
  Go iterates maps in a randomized order; wherever an iteration order is
  observable it is an explicit parameter of the embedding (see
  `detectLanguage`), so theorems quantified over that parameter cover every
  behaviour the Go runtime can exhibit.
* Ghost fields (`probes`, `cacheWrites`, `visited`) record events — classifier
  invocations, language-cache stores, `WalkDir` callback invocations on
  directories — without influencing the computation; they exist so that
  temporal claims about the scan become statements about the final state.
-/

namespace DevCache

/-! ## Names, paths, and the pattern matcher -/

/-- A Go string (used for directory names, patterns, languages). -/
abbrev Name := List Char

/-- A path, as segments relative to the scan root; `[]` is the root. -/
abbrev Path := List Name

/-- Shorthand turning a string literal into a `Name`. -/
def str (s : String) : Name := s.toList

/-- `matchPattern` (main.go:853-866): exact match, or a trailing-`*` pattern
matching any name that starts with the pattern's literal prefix. -/
def matchPattern (name pattern : Name) : Bool :=
  if name = pattern then true
  else if pattern.getLast? = some '*' then
    -- strings.TrimSuffix(pattern, "*") then strings.HasPrefix(name, prefix)
    List.isPrefixOf pattern.dropLast name
  else false

/-! ## Filesystem model

`FSEntry`/`FSList` form a finite rose tree.  (They are mutual inductives
rather than `List FSEntry` so that the tree walk below is structurally
recursive and computable by the kernel.) -/

mutual

/-- A filesystem entry: a file (with size and modification time) or a
directory.  `unreadable` models a directory on which `os.ReadDir` fails. -/
inductive FSEntry where
  | file (name : Name) (size : Nat) (mtime : Nat)
  | dir (name : Name) (unreadable : Bool) (children : FSList)

/-- A list of filesystem entries (one directory level). -/
inductive FSList where
  | nil
  | cons (e : FSEntry) (rest : FSList)

end

def FSList.toList : FSList → List FSEntry
  | .nil => []
  | .cons e rest => e :: rest.toList

def FSEntry.name : FSEntry → Name
  | .file n _ _ => n
  | .dir n _ _ => n

def FSEntry.isDir : FSEntry → Bool
  | .file _ _ _ => false
  | .dir _ _ _ => true

def FSEntry.isUnreadableDir : FSEntry → Bool
  | .file _ _ _ => false
  | .dir _ u _ => u

/-- Find the (first) subdirectory entry named `seg` at one level. -/
def findDirEntry (l : FSList) (seg : Name) : Option FSEntry :=
  l.toList.find? (fun e => e.isDir && e.name == seg)

/-- The entries of the directory at path `p` below `tree` (the scan root's
entries), or `none` when the directory does not exist, is not a directory,
or is unreadable — the cases in which Go's `os.ReadDir` errors. -/
def readDirEntries : Path → FSList → Option (List FSEntry)
  | [], tree => some tree.toList
  | seg :: rest, tree =>
    match findDirEntry tree seg with
    | some (.dir _ unreadable cs) =>
      if unreadable then none else readDirEntries rest cs
    | _ => none

/-- The directory entry at (nonempty) path `p` below `tree`, or `none` if
absent or behind an unreadable directory. -/
def findDirNode : Path → FSList → Option FSEntry
  | [], _ => none
  | [seg], tree => findDirEntry tree seg
  | seg :: rest, tree =>
    match findDirEntry tree seg with
    | some (.dir _ unreadable cs) =>
      if unreadable then none else findDirNode rest cs
    | _ => none

/-- Well-formed one level: distinct subdirectory names. -/
def dirNamesNodup (l : FSList) : Bool :=
  decide ((l.toList.filter (fun e => e.isDir)).map FSEntry.name).Nodup

mutual

/-- Every directory below this entry has distinct subdirectory names. -/
def FSEntry.wf : FSEntry → Bool
  | .file _ _ _ => true
  | .dir _ _ cs => dirNamesNodup cs && FSList.wfAll cs

/-- `FSEntry.wf` for every entry of the list. -/
def FSList.wfAll : FSList → Bool
  | .nil => true
  | .cons e rest => e.wf && rest.wfAll

end

/-- A well-formed filesystem: within each directory (the root included),
subdirectory names are distinct — true of any real filesystem. -/
def treeWF (tree : FSList) : Bool := dirNamesNodup tree && tree.wfAll

/-! ## Language classifier (`detectLanguage`, main.go:470-524) -/

/-- A Go language name, as a raw string; `[]` is Go's `""` (no language). -/
abbrev Lang := List Char

/-- A candidate in `detectLanguage`'s priority sort (the local `langEntry`
struct, main.go:477-481). -/
structure LangEntry where
  name : Lang
  signatures : List Name
  priority : Int

/-- `langPriorities` lookup with Go's defaulting (main.go:484-487): missing
key or stored zero both yield the default priority 5. -/
def lookupPriority (langPriorities : List (Lang × Int)) (l : Lang) : Int :=
  match langPriorities.find? (fun q => q.1 == l) with
  | some q => if q.2 == 0 then 5 else q.2
  | none => 5

/-- Stable insert for an ascending-priority insertion sort: `x` goes after
every already-placed entry of priority `≤ x.priority`. -/
def insertByPriority (x : LangEntry) : List LangEntry → List LangEntry
  | [] => [x]
  | y :: l => if y.priority ≤ x.priority then y :: insertByPriority x l
              else x :: y :: l

/-- The priority sort of main.go:497-499.  Go uses the unstable `sort.Slice`
on a list produced by iterating the `langSignatures` map, whose order is
randomized per call; the set of lists an unstable sort can produce from some
iteration order equals the set a stable sort produces from some iteration
order, so a stable sort over the explicit `langSignatures` order parameter
captures exactly the code's possible behaviours. -/
def sortByPriority (l : List LangEntry) : List LangEntry :=
  l.foldl (fun acc x => insertByPriority x acc) []

/-- Does directory entry `e` match marker signature `sig`
(main.go:504-519)?  A `*.ext` signature matches a non-directory entry whose
lowercased name ends in the lowercased extension; any other signature
matches a non-directory entry with exactly that name. -/
def entryMatchesSig (sig : Name) (e : FSEntry) : Bool :=
  if List.isPrefixOf (str "*.") sig then
    -- ext := strings.TrimPrefix(sig, "*")
    let ext := sig.drop 1
    !e.isDir && List.isSuffixOf (ext.map Char.toLower) (e.name.map Char.toLower)
  else
    !e.isDir && e.name == sig

/-- `detectLanguage` (main.go:470-524) on already-read directory entries:
sort the candidate languages ascending by priority, then return the first
one having a signature matched by some entry; `[]` if none.  `entries = none`
is the `os.ReadDir` error case (returns `""`, main.go:471-474). -/
def detectLanguage (langSignatures : List (Lang × List Name))
    (langPriorities : List (Lang × Int)) (entries : Option (List FSEntry)) :
    Lang :=
  match entries with
  | none => []
  | some es =>
    let langs := langSignatures.map
      (fun q => LangEntry.mk q.1 q.2 (lookupPriority langPriorities q.1))
    match (sortByPriority langs).find?
        (fun le => le.signatures.any (fun sig => es.any (entryMatchesSig sig))) with
    | some le => le.name
    | none => []

/-! ### Fixtures for claim C3 (tie-breaking) -/

def c3sigA : Lang × List Name := (str "alpha", [str "marker.a"])

def c3sigB : Lang × List Name := (str "beta", [str "marker.b"])

def c3entries : List FSEntry :=
  [.file (str "marker.a") 1 0, .file (str "marker.b") 1 0]

def c3pris : List (Lang × Int) := [(str "alpha", 5), (str "beta", 5)]

/-! ## Findings and size aggregation (`Finding`, `inspectPath`) -/

/-- `Finding` (main.go:64-73).  `pattern = []` is Go's empty `Pattern`
(a status finding); `err` abstracts the non-fatal sizing error string to its
presence. -/
structure Finding where
  path : Path
  projectRoot : Path
  sizeBytes : Nat
  items : Nat
  pattern : Name
  language : Lang
  err : Bool
  modMax : Nat
deriving DecidableEq

/-- Recursive (items, bytes, latest mtime, error?) aggregate of
`inspectPath`'s `WalkDir` (main.go:139-159): files contribute count/size/
mtime; an unreadable directory contributes nothing but records an error. -/
def combineAgg (a b : Nat × Nat × Nat × Bool) : Nat × Nat × Nat × Bool :=
  (a.1 + b.1, a.2.1 + b.2.1, max a.2.2.1 b.2.2.1, a.2.2.2 || b.2.2.2)

mutual

def aggEntry : FSEntry → Nat × Nat × Nat × Bool
  | .file _ sz mt => (1, sz, mt, false)
  | .dir _ unreadable cs => if unreadable then (0, 0, 0, true) else aggList cs

def aggList : FSList → Nat × Nat × Nat × Bool
  | .nil => (0, 0, 0, false)
  | .cons e rest => combineAgg (aggEntry e) (aggList rest)

end

/-- `inspectPath` (main.go:127-161) on the directory at `p`: the recursive
aggregate of its subtree; a missing node is the `os.Stat` error case
(zero totals, error recorded by the caller, main.go:756-759). -/
def inspectAt (tree : FSList) (p : Path) : Nat × Nat × Nat × Bool :=
  match findDirNode p tree with
  | some e => aggEntry e
  | none => (0, 0, 0, true)

/-- `getLanguageForExclusion` (main.go:172-180). -/
def getLanguageForExclusion (detectedLang : Lang) (isExcluded : Bool) : Lang :=
  if isExcluded then []
  else if detectedLang = [] then str "no language found"
  else detectedLang

/-- `excludedFromLanguageDetection` (main.go:532-534). -/
def excludedFromLanguageDetection : List Name := [str ".git"]

/-! ## Scanner configuration and state -/

/-- The scan-relevant arguments of `scanDirectory` (main.go:527), with the
Go maps as association lists (first match wins; the maps' key sets are
their keys' first occurrences). -/
structure Ctx where
  maxDepth : Nat
  patterns : List Name
  patternToLang : List (Name × Lang)
  detectLang : Bool
  langSignatures : List (Lang × List Name)
  langPriorities : List (Lang × Int)
  langToPatterns : List (Lang × List Name)

/-- First-match association-list lookup (a Go map read). -/
def lookupAssoc {α : Type} [DecidableEq α] {β : Type}
    (l : List (α × β)) (k : α) : Option β :=
  (l.find? (fun q => decide (q.1 = k))).map (fun q => q.2)

/-- Go `map[...]bool` insert `m[k] = true` (deduplicating, since only the
key set is observable). -/
def setInsert (l : List Path) (p : Path) : List Path :=
  if p ∈ l then l else p :: l

/-- Go map `delete(m, k)`. -/
def setErase (l : List Path) (p : Path) : List Path :=
  l.filter (fun q => decide (q ≠ p))

/-- The scanner's per-invocation state (main.go:528-552), plus ghost event
logs: `probes` records every `detectLanguage` invocation's directory,
`cacheWrites` every store into `langCache`, and `visited` every directory
the `WalkDir` callback was invoked on.  The ghost fields never influence
the computation. -/
structure St where
  findings : List Finding
  langCache : List (Path × Lang)
  depth0NoLang : List Path
  depth0Scanned : List Path
  findingsByPath : List Path
  excludedDirs : List Path
  probes : List Path
  cacheWrites : List (Path × Lang)
  visited : List Path

def St.init : St := ⟨[], [], [], [], [], [], [], [], []⟩

/-- Store `langCache[p] = v` (prepend = Go's overwriting map store),
recording the ghost write. -/
def St.cacheStore (s : St) (p : Path) (v : Lang) : St :=
  { s with langCache := (p, v) :: s.langCache,
           cacheWrites := s.cacheWrites ++ [(p, v)] }

/-- `detectLanguage` at the directory `p` of the scanned tree
(main.go:667/681/694: the classifier re-reads the filesystem at `p`). -/
def detectAt (ctx : Ctx) (tree : FSList) (p : Path) : Lang :=
  detectLanguage ctx.langSignatures ctx.langPriorities (readDirEntries p tree)

/-- The project root of the directory at `path` (main.go:621-640): itself at
depth 0 unless it matches a cache pattern (then the scan root `[]`); the
depth-0 ancestor (first path segment) otherwise. -/
def projectRootOf (path : Path) (depth : Nat) (matchesCachePattern : Bool) :
    Path :=
  if depth = 0 then (if matchesCachePattern then [] else path)
  else [path.headD []]

/-! ## The `WalkDir` callback (main.go:554-808), in phases

`processDir` is the callback body for a directory at (nonempty) `path`;
its Boolean result is `true` for Go's `filepath.SkipDir`.  Within the
language-detection block the Go variable `projectRoot` is always non-empty
(all three branches of main.go:621-640 assign it), so it is modelled as a
plain `Path`; the dead `projectRoot != ""` guards (main.go:665, 723, 769)
are therefore omitted. -/

/-- main.go:642-656: record depth-0 directories in `depth0Scanned`; mark an
excluded depth-0 directory and cache its language as empty. -/
def detect1 (s : St) (pr : Path) (depth : Nat) (isExcluded : Bool) : St :=
  let s := if depth = 0 then
    { s with depth0Scanned := setInsert s.depth0Scanned pr } else s
  if isExcluded then
    if depth = 0 then
      ({ s with excludedDirs := setInsert s.excludedDirs pr }).cacheStore pr []
    else s
  else s

/-- main.go:658-675: consult the classification cache for the project root;
on a miss (and if not excluded) classify the project root, cache the result,
and track depth-0 directories with no language. -/
def detect2 (ctx : Ctx) (tree : FSList) (s : St) (pr : Path) (depth : Nat) :
    St × Lang :=
  match lookupAssoc s.langCache pr with
  | some cached =>
    (if cached ≠ [] then
      { s with depth0NoLang := setErase s.depth0NoLang pr } else s, cached)
  | none =>
    if pr ∉ s.excludedDirs then
      let lang := detectAt ctx tree pr
      let s := { s with probes := s.probes ++ [pr] }
      let s := s.cacheStore pr lang
      let s := if depth = 0 ∧ lang = [] then
        { s with depth0NoLang := setInsert s.depth0NoLang pr } else s
      (s, lang)
    else (s, [])

/-- main.go:679-689: if the project root gave no language and we are above
`maxDepth`, probe the current directory itself (a possible nested project);
only a non-empty result is cached. -/
def detect3 (ctx : Ctx) (tree : FSList) (s : St) (path pr : Path)
    (depth : Nat) (detected : Lang) (maxDepth : Nat) : St × Lang :=
  if detected = [] ∧ depth < maxDepth ∧ pr ∉ s.excludedDirs then
    let current := detectAt ctx tree path
    let s := { s with probes := s.probes ++ [path] }
    if current ≠ [] then (s.cacheStore path current, current)
    else (s, detected)
  else (s, detected)

/-- main.go:691-720: at `maxDepth` with no language, probe the current
directory once more; if still nothing and it is itself depth 0, emit its
status finding now. -/
def detect4 (ctx : Ctx) (tree : FSList) (s : St) (path pr : Path)
    (depth maxDepth : Nat) (detected : Lang) : St × Lang :=
  if depth = maxDepth ∧ detected = [] ∧ pr ∉ s.excludedDirs then
    let current := detectAt ctx tree path
    let s := { s with probes := s.probes ++ [path] }
    if current = [] then
      if depth = 0 then
        let f : Finding :=
          { path := path, projectRoot := path, sizeBytes := 0, items := 0,
            pattern := [],
            language := getLanguageForExclusion []
              (decide (path ∈ s.excludedDirs)),
            err := false, modMax := 0 }
        ({ s with findings := s.findings ++ [f],
                  depth0NoLang := setErase s.depth0NoLang path }, detected)
      else (s, detected)
    else (s.cacheStore path current, current)
  else (s, detected)

/-- main.go:722-741: at `maxDepth`, discharge a still-unresolved depth-0
project root recorded in `depth0NoLang`. -/
def detect5 (s : St) (pr : Path) (depth maxDepth : Nat) : St :=
  if depth = maxDepth then
    if pr ∈ s.depth0NoLang then
      if (lookupAssoc s.langCache pr).getD [] = [] then
        let f : Finding :=
          { path := pr, projectRoot := pr, sizeBytes := 0, items := 0,
            pattern := [],
            language := getLanguageForExclusion []
              (decide (pr ∈ s.excludedDirs)),
            err := false, modMax := 0 }
        { s with findings := s.findings ++ [f],
                 depth0NoLang := setErase s.depth0NoLang pr }
      else s
    else s
  else s

/-- main.go:744-748: a resolved language narrows the patterns to check to
that language's own patterns. -/
def narrowPatterns (ctx : Ctx) (detected : Lang) : List Name :=
  if detected ≠ [] then
    match lookupAssoc ctx.langToPatterns detected with
    | some lp => lp
    | none => ctx.patterns
  else ctx.patterns

/-- main.go:751-782: emit a cache-match finding for the first matching
pattern of the effective set, record the path, and skip the subtree.
`prOpt` is `some` exactly when language detection is on (Go's
`detectLang && projectRoot != ""`, main.go:769). -/
def matchPhase (ctx : Ctx) (tree : FSList) (s : St) (path : Path)
    (dirName : Name) (patternsToCheck : List Name) (detected : Lang)
    (prOpt : Option Path) : St × Bool :=
  match patternsToCheck.find? (matchPattern dirName) with
  | some pat =>
    let agg := inspectAt tree path
    let f : Finding :=
      { path := path
        projectRoot := match prOpt with
          | some pr => pr
          | none => path.dropLast
        sizeBytes := agg.2.1
        items := agg.1
        pattern := pat
        language := if ctx.detectLang ∧ detected ≠ [] then detected
          else (lookupAssoc ctx.patternToLang pat).getD []
        err := agg.2.2.2
        modMax := agg.2.2.1 }
    ({ s with findings := s.findings ++ [f],
              findingsByPath := setInsert s.findingsByPath path }, true)
  | none => (s, false)

/-- main.go:784-806: the depth-0 "no language found" fallback report. -/
def fallbackPhase (ctx : Ctx) (s : St) (path pr : Path) (depth : Nat)
    (detected : Lang) (matchesCachePattern : Bool) : St :=
  if ctx.detectLang ∧ depth = 0 ∧ detected = [] ∧ matchesCachePattern = false
  then
    if path ∉ s.findingsByPath then
      if pr ∈ s.depth0NoLang then
        { s with
          findings := s.findings ++
            [{ path := pr, projectRoot := pr, sizeBytes := 0, items := 0,
               pattern := [], language := str "no language found",
               err := false, modMax := 0 }],
          depth0NoLang := setErase s.depth0NoLang pr }
      else s
    else s
  else s

/-- The `WalkDir` callback (main.go:554-808) on the directory at `path`;
returns the updated state and whether the subtree is skipped
(`filepath.SkipDir`: on exceeding `maxDepth`, main.go:588-590, or on a
cache-pattern match, main.go:780). -/
def processDir (ctx : Ctx) (tree : FSList) (s : St) (path : Path) :
    St × Bool :=
  let s := { s with visited := s.visited ++ [path] }
  let depth := path.length - 1
  if depth > ctx.maxDepth then (s, true)
  else
    let dirName := path.getLastD []
    let matchesCachePattern := ctx.patterns.any (matchPattern dirName)
    let isExcluded := decide (dirName ∈ excludedFromLanguageDetection)
    if ctx.detectLang then
      let pr := projectRootOf path depth matchesCachePattern
      let s := detect1 s pr depth isExcluded
      let r2 := detect2 ctx tree s pr depth
      let r3 := detect3 ctx tree r2.1 path pr depth r2.2 ctx.maxDepth
      let r4 := detect4 ctx tree r3.1 path pr depth ctx.maxDepth r3.2
      let s := detect5 r4.1 pr depth ctx.maxDepth
      let pats := narrowPatterns ctx r4.2
      let rm := matchPhase ctx tree s path dirName pats r4.2 (some pr)
      if rm.2 then (rm.1, true)
      else (fallbackPhase ctx rm.1 path pr depth r4.2 matchesCachePattern,
            false)
    else
      matchPhase ctx tree s path dirName ctx.patterns [] none

/-! ## The walk (`filepath.WalkDir`, pre-order) and `scanDirectory` -/

mutual

/-- Walk one entry: files are ignored (main.go:559-561); a directory is
processed and, unless skipped or unreadable (an unreadable directory's
error callback returns `nil` and its entry list is empty, main.go:555-557),
its children are walked. -/
def walkEntry (ctx : Ctx) (tree : FSList) (e : FSEntry) (parent : Path)
    (s : St) : St :=
  match e with
  | .file _ _ _ => s
  | .dir n unreadable cs =>
    let pd := processDir ctx tree s (parent ++ [n])
    if pd.2 then pd.1
    else if unreadable then pd.1
    else walkEntries ctx tree cs (parent ++ [n]) pd.1

/-- Walk the entries of one directory level, left to right. -/
def walkEntries (ctx : Ctx) (tree : FSList) (l : FSList) (parent : Path)
    (s : St) : St :=
  match l with
  | .nil => s
  | .cons e rest =>
    walkEntries ctx tree rest parent (walkEntry ctx tree e parent s)

end

/-- Does the finding `f` count as covering the depth-0 root `r`
(main.go:821: `f.Path == r || strings.HasPrefix(f.Path, r+sep)`)? -/
def coversB (r : Path) (f : Finding) : Bool := List.isPrefixOf r f.path

/-- main.go:814-846: after the walk, every scanned depth-0 root covered by
no finding gets a trailing status finding carrying its cached language. -/
def trailingFindings (s : St) : List Finding :=
  (s.depth0Scanned.filter (fun r => !(s.findings.any (coversB r)))).map
    (fun r =>
      { path := r, projectRoot := r, sizeBytes := 0, items := 0,
        pattern := [],
        language := getLanguageForExclusion
          ((lookupAssoc s.langCache r).getD [])
          (decide (r ∈ s.excludedDirs)),
        err := false, modMax := 0 })

/-- The whole of `scanDirectory` (main.go:527-849), returning the final
scanner state (ghost logs included). -/
def scanSt (ctx : Ctx) (tree : FSList) : St :=
  let s := walkEntries ctx tree tree [] St.init
  { s with findings := s.findings ++ trailingFindings s }

/-- `scanDirectory`'s return value: the finding list. -/
def scanDirectory (ctx : Ctx) (tree : FSList) : List Finding :=
  (scanSt ctx tree).findings

/-- The report assembled by `main` around a scan (main.go:327-353): the
findings, the total of their sizes, and the warnings list — initialized
empty (main.go:335) and never appended to by any code path. -/
structure Report where
  total : Nat
  findings : List Finding
  warnings : List (List Char)

def runScan (ctx : Ctx) (tree : FSList) : Report :=
  let findings := scanDirectory ctx tree
  { total := findings.foldl (fun acc f => acc + f.sizeBytes) 0
    findings := findings
    warnings := [] }

/-! ## Well-formedness and shape predicates -/

/-- Well-formed configuration, as `main` builds the lookup tables
(main.go:297-320): every language's own patterns also appear in the
combined `allPatterns` list, and configured patterns are non-empty
strings. -/
def ctxWF (ctx : Ctx) : Prop :=
  (∀ q ∈ ctx.langToPatterns, ∀ pat ∈ q.2, pat ∈ ctx.patterns)
  ∧ [] ∉ ctx.patterns

/-- No configured cache pattern matches the excluded directory name
`.git` (true of the starter configuration). -/
def NoGitPattern (ctx : Ctx) : Prop :=
  ∀ pat ∈ ctx.patterns, matchPattern (str ".git") pat = false

/-- What the code guarantees about `projectRoot` (cf. claim C6): status
findings point at themselves and sit at depth ≤ 0 (path length ≤ 1);
cache-match findings carry the scan root when matched at depth 0 and the
depth-0 ancestor when deeper (with language detection on), and the parent
directory with detection off. -/
def FindingShape (ctx : Ctx) (f : Finding) : Prop :=
  (f.pattern = [] → f.projectRoot = f.path ∧ f.path.length ≤ 1)
  ∧ (f.pattern ≠ [] → f.projectRoot =
      (if ctx.detectLang then
        (if f.path.length = 1 then ([] : Path) else [f.path.headD []])
      else f.path.dropLast))

/-- The invariant making "each cache entry is written at most once"
inductive: write keys are distinct and all present in the cache. -/
def WInv (s : St) : Prop :=
  (s.cacheWrites.map Prod.fst).Nodup
  ∧ ∀ p ∈ s.cacheWrites.map Prod.fst,
      (lookupAssoc s.langCache p).isSome = true

/-- No cache-match finding has a visited directory strictly below it (the
scanner never descends into a match). -/
def Safe (s : St) : Prop :=
  ∀ f ∈ s.findings, f.pattern ≠ [] →
    ∀ q ∈ s.visited, ¬(f.path <+: q ∧ f.path ≠ q)

/-- No cache-match finding sits at or above any of the paths in `F` (the
directories still to be walked). -/
def Reach (s : St) (F : List Path) : Prop :=
  ∀ f ∈ s.findings, f.pattern ≠ [] → ∀ q ∈ F, ¬ f.path <+: q

/-- Every finding so far points at the scan root or a visited directory. -/
def FPaths (s : St) : Prop :=
  ∀ f ∈ s.findings, f.path = [] ∨ f.path ∈ s.visited

/-- Every recorded depth-0 root is the scan root or a visited directory. -/
def DSv (s : St) : Prop :=
  ∀ r ∈ s.depth0Scanned, r = [] ∨ r ∈ s.visited

/-- Every classification-cache key is the scan root or a visited
directory. -/
def Keys (s : St) : Prop :=
  ∀ p, (lookupAssoc s.langCache p).isSome = true → p = [] ∨ p ∈ s.visited

/-- Two path sets with no prefix relation across them (disjoint
subtrees). -/
def Sep (A B : List Path) : Prop :=
  ∀ p ∈ A, ∀ r ∈ B, ¬ p <+: r ∧ ¬ r <+: p

/-- Occurrences of the path `p` in `l`. -/
def countPath (l : List Path) (p : Path) : Nat :=
  l.countP (fun q => decide (q = p))

/-- How many classifier probes of directory `p` the state can justify: one
if `p` is cached (the at-most-one root-level probe, main.go:667) plus one
per visit of `p` itself (the local nested-project probe,
main.go:681/694). -/
def probeBudget (s : St) (p : Path) : Nat :=
  (if (lookupAssoc s.langCache p).isSome = true then 1 else 0)
    + countPath s.visited p

/-- The classifier was probed on each directory at most as often as the
budget allows. -/
def ProbeInv (s : St) : Prop := ∀ p, countPath s.probes p ≤ probeBudget s p

/-! ## Geometry of the walked forest -/

/-- The subdirectory names of one level. -/
def dirNames (l : FSList) : List Name :=
  (l.toList.filter (fun e => e.isDir)).map FSEntry.name

mutual

/-- All directory paths in the subtree rooted at entry `e` under `parent`
(children of unreadable directories included). -/
def entryPaths (parent : Path) : FSEntry → List Path
  | .file _ _ _ => []
  | .dir n _ cs => (parent ++ [n]) :: levelPaths (parent ++ [n]) cs

/-- All directory paths in the forest `l` under `parent`. -/
def levelPaths (parent : Path) : FSList → List Path
  | .nil => []
  | .cons e rest => entryPaths parent e ++ levelPaths parent rest

end

/-- Everything the walk induction establishes for walking one entry of the
forest under `parent`, with `G` the paths of the directories still pending
after this subtree. -/
def EntryOut (ctx : Ctx) (tree : FSList) (e : FSEntry) (parent : Path)
    (s : St) : Prop :=
  FSEntry.wf e = true →
  ∀ G : List Path,
    Sep (entryPaths parent e) G →
    (∀ q ∈ s.visited, ∀ r ∈ entryPaths parent e ++ G, ¬ r <+: q) →
    (∀ q, q ≠ [] → q <+: parent → q ∈ s.visited) →
    Safe s → Reach s (entryPaths parent e ++ G) → FPaths s → DSv s →
    Keys s →
    (∃ V, (walkEntry ctx tree e parent s).visited = s.visited ++ V
      ∧ (∀ q ∈ V, q ∈ entryPaths parent e) ∧ V.Nodup)
    ∧ Safe (walkEntry ctx tree e parent s)
    ∧ Reach (walkEntry ctx tree e parent s) G
    ∧ FPaths (walkEntry ctx tree e parent s)
    ∧ DSv (walkEntry ctx tree e parent s)
    ∧ Keys (walkEntry ctx tree e parent s)
    ∧ (NoGitPattern ctx → WInv s → WInv (walkEntry ctx tree e parent s))

/-- `EntryOut` for a whole forest level. -/
def LevelOut (ctx : Ctx) (tree : FSList) (l : FSList) (parent : Path)
    (s : St) : Prop :=
  (dirNamesNodup l && FSList.wfAll l) = true →
  ∀ G : List Path,
    Sep (levelPaths parent l) G →
    (∀ q ∈ s.visited, ∀ r ∈ levelPaths parent l ++ G, ¬ r <+: q) →
    (∀ q, q ≠ [] → q <+: parent → q ∈ s.visited) →
    Safe s → Reach s (levelPaths parent l ++ G) → FPaths s → DSv s →
    Keys s →
    (∃ V, (walkEntries ctx tree l parent s).visited = s.visited ++ V
      ∧ (∀ q ∈ V, q ∈ levelPaths parent l) ∧ V.Nodup)
    ∧ Safe (walkEntries ctx tree l parent s)
    ∧ Reach (walkEntries ctx tree l parent s) G
    ∧ FPaths (walkEntries ctx tree l parent s)
    ∧ DSv (walkEntries ctx tree l parent s)
    ∧ Keys (walkEntries ctx tree l parent s)
    ∧ (NoGitPattern ctx → WInv s →
        WInv (walkEntries ctx tree l parent s))

/-! ## Concrete scan scenarios

Small configurations and trees used to settle the claims that fail on the
code.  Each is spelled out so that the scan evaluates by `decide`. -/

/-- Build an `FSList` from a `List FSEntry`. -/
def fsList : List FSEntry → FSList
  | [] => .nil
  | e :: rest => .cons e (fsList rest)

/-- Two enabled languages, as `main` builds the lookup tables from the
configuration (main.go:297-320): `node` (pattern `node_modules`, marker
`package.json`, priority 10) and `go` (pattern `vendor`, marker `go.mod`,
priority 5). -/
def ctxNodeGo (maxDepth : Nat) : Ctx :=
  { maxDepth := maxDepth
    patterns := [str "node_modules", str "vendor"]
    patternToLang := [(str "node_modules", str "node"), (str "vendor", str "go")]
    detectLang := true
    langSignatures := [(str "node", [str "package.json"]),
                       (str "go", [str "go.mod"])]
    langPriorities := [(str "node", 10), (str "go", 5)]
    langToPatterns := [(str "node", [str "node_modules"]),
                       (str "go", [str "vendor"])] }

/-- A scan root containing a `package.json` file and a depth-0 `vendor`
directory (a `go` cache-pattern name inside what classifies as a `node`
project). -/
def treeVendor : FSList := fsList
  [ .file (str "package.json") 10 5,
    .dir (str "vendor") false .nil ]

/-- `treeVendor` with a subdirectory inside `vendor`. -/
def treeVendorSub : FSList := fsList
  [ .file (str "package.json") 10 5,
    .dir (str "vendor") false (fsList [.dir (str "sub") false .nil]) ]

/-- Configuration for the C2 counterexample: patterns `.a` and `.git`;
language `node` with marker `package.json` and its own pattern `.a`. -/
def ctxC2 : Ctx :=
  { maxDepth := 1
    patterns := [str ".a", str ".git"]
    patternToLang := [(str ".a", str "node"), (str ".git", str "node")]
    detectLang := true
    langSignatures := [(str "node", [str "package.json"])]
    langPriorities := [(str "node", 10)]
    langToPatterns := [(str "node", [str ".a"])] }

/-- Scan root with a depth-0 cache directory `.a`, a depth-0 `.git` that
itself matches a configured pattern, a marker file, and a markerless
project `proj` — listed in the lexical order `filepath.WalkDir` visits
(`.a` sorts before `.git`). -/
def treeC2 : FSList := fsList
  [ .dir (str ".a") false .nil,
    .dir (str ".git") false .nil,
    .file (str "package.json") 1 1,
    .dir (str "proj") false .nil ]

/-- Configuration with the single language `node`. -/
def ctxNode (maxDepth : Nat) : Ctx :=
  { maxDepth := maxDepth
    patterns := [str "node_modules"]
    patternToLang := [(str "node_modules", str "node")]
    detectLang := true
    langSignatures := [(str "node", [str "package.json"])]
    langPriorities := [(str "node", 10)]
    langToPatterns := [(str "node", [str "node_modules"])] }

/-- A scan root whose only entry is a depth-0 `node_modules` directory. -/
def treeDepth0Cache : FSList := fsList
  [ .dir (str "node_modules") false (fsList [.file (str "f.txt") 3 2]) ]

/-- Configuration without language detection, pattern `node_modules`. -/
def ctxPlain : Ctx :=
  { maxDepth := 1
    patterns := [str "node_modules"]
    patternToLang := [(str "node_modules", str "node")]
    detectLang := false
    langSignatures := []
    langPriorities := []
    langToPatterns := [] }

/-- A scan root with an unreadable directory (holding a subdirectory) next
to a matching cache directory. -/
def treeUnreadable : FSList := fsList
  [ .dir (str "noread") true (fsList [.dir (str "sub") false .nil]),
    .dir (str "node_modules") false (fsList [.file (str "a") 5 1]) ]

/-- A scan root holding a depth-0 `.git` and a depth-0 `.svn`, neither with
markers or cache matches. -/
def treeVcs : FSList := fsList
  [ .dir (str ".git") false (fsList [.file (str "config") 1 1]),
    .dir (str ".svn") false (fsList [.file (str "entries") 1 1]) ]

/-! # Theorems -/

/-! ## The pattern matcher (claim C7) -/

theorem matchPattern_wildcard (name pre : Name) :
    matchPattern name (pre ++ ['*']) = List.isPrefixOf pre name := by
  unfold matchPattern
  rw [List.getLast?_concat, List.dropLast_concat]
  split
  · rename_i h
    subst h
    simp [List.isPrefixOf_iff_prefix]
  · simp

theorem matchPattern_exact (name pat : Name) (h : pat.getLast? ≠ some '*') :
    matchPattern name pat = true ↔ name = pat := by
  unfold matchPattern
  split
  · simp_all
  · rename_i hne
    simp [h, hne]

/-- **C7.** `matchPattern`: a pattern ending in `*` matches exactly the
names starting with its literal prefix (the prefix alone included); a
pattern not ending in `*` requires equality; in particular
`cmake-build-*` matches `cmake-build-debug` and `cmake-build-`, but not
`cmake-build`. -/
theorem C7_matchPattern_wildcard_semantics :
    (∀ name pre : Name,
      matchPattern name (pre ++ ['*']) = List.isPrefixOf pre name)
    ∧ (∀ name pat : Name, pat.getLast? ≠ some '*' →
      (matchPattern name pat = true ↔ name = pat))
    ∧ matchPattern (str "cmake-build-debug") (str "cmake-build-*") = true
    ∧ matchPattern (str "cmake-build-") (str "cmake-build-*") = true
    ∧ matchPattern (str "cmake-build") (str "cmake-build-*") = false :=
  ⟨matchPattern_wildcard, matchPattern_exact, by decide, by decide, by decide⟩

/-- Witness for `C7_matchPattern_wildcard_semantics` at concrete inputs. -/
theorem C7_matchPattern_wildcard_semantics_witness :
    ((str "build").getLast? ≠ some '*')
    ∧ (matchPattern (str "build") (str "build") = true ↔
        str "build" = str "build") :=
  ⟨by decide,
   C7_matchPattern_wildcard_semantics.2.1 (str "build") (str "build")
     (by decide)⟩

/-! ## The classifier ignores subdirectories (claim C9) -/

theorem entryMatchesSig_dir (sig n : Name) (u : Bool) (cs : FSList) :
    entryMatchesSig sig (.dir n u cs) = false := by
  simp [entryMatchesSig, FSEntry.isDir]

theorem not_isDir_and_entryMatchesSig (sig : Name) (e : FSEntry) :
    (!e.isDir && entryMatchesSig sig e) = entryMatchesSig sig e := by
  cases e with
  | file n sz mt => simp [FSEntry.isDir]
  | dir n u cs => simp [FSEntry.isDir, entryMatchesSig_dir]

theorem any_entryMatchesSig_filter (sig : Name) (es : List FSEntry) :
    (es.filter (fun e => !e.isDir)).any (entryMatchesSig sig)
      = es.any (entryMatchesSig sig) := by
  simp [List.any_filter, not_isDir_and_entryMatchesSig]

/-- **C9.** `detectLanguage` only matches marker signatures against
non-directory entries: its result on a directory's entries equals its result
on the non-directory entries alone, and no signature ever matches a
subdirectory entry — so a subdirectory named like a literal marker, or with a
`*.ext` marker's extension, never causes a classification. -/
theorem C9_classifier_ignores_subdirectories :
    (∀ (langSignatures : List (Lang × List Name))
       (langPriorities : List (Lang × Int)) (es : List FSEntry),
       detectLanguage langSignatures langPriorities (some es)
         = detectLanguage langSignatures langPriorities
             (some (es.filter (fun e => !e.isDir))))
    ∧ (∀ (sig n : Name) (u : Bool) (cs : FSList),
       entryMatchesSig sig (.dir n u cs) = false) := by
  refine ⟨fun langSignatures langPriorities es => ?_, entryMatchesSig_dir⟩
  unfold detectLanguage
  simp only [any_entryMatchesSig_filter]

/-! ## Tie-breaking depends on map iteration order (claim C3)

`detectLanguage` builds its candidate list by iterating the `langSignatures`
map (randomized order in Go, main.go:483) and sorts it with the unstable
`sort.Slice` (main.go:497); the code's own comment (main.go:469) says ties
are "checked in map iteration order". -/

/-- **C3.** The same `langSignatures` map contents (a permutation — the two
lists are equal as maps), presented in the two iteration orders Go's
randomized map can produce, make `detectLanguage` return different equal-
priority winners on the same directory; the result is therefore decided by
the unspecified map iteration order, not by configuration insertion order. -/
theorem C3_tie_breaking_depends_on_map_order :
    List.Perm [c3sigA, c3sigB] [c3sigB, c3sigA]
    ∧ detectLanguage [c3sigA, c3sigB] c3pris (some c3entries) = str "alpha"
    ∧ detectLanguage [c3sigB, c3sigA] c3pris (some c3entries) = str "beta" := by
  refine ⟨by decide, by decide, by decide⟩

/-! ## Generic walk preservation

Any state predicate preserved by the callback on every nonempty path is
preserved by the whole walk. -/

section WalkPreserve

variable (ctx : Ctx) (tree : FSList)

theorem walk_preserves (P : St → Prop)
    (h : ∀ s path, path ≠ [] → P s → P (processDir ctx tree s path).1) :
    (∀ e parent s, P s → P (walkEntry ctx tree e parent s))
    ∧ (∀ l parent s, P s → P (walkEntries ctx tree l parent s)) := by
  have c1 : ∀ (parent : Path) (s : St) (n : Name) (sz mt : Nat),
      P s → P (walkEntry ctx tree (.file n sz mt) parent s) := by
    intro _ _ _ _ _ hp
    simpa [walkEntry] using hp
  have c2 : ∀ (parent : Path) (s : St) (n : Name) (u : Bool) (cs : FSList),
      (processDir ctx tree s (parent ++ [n])).2 = true →
      P s → P (walkEntry ctx tree (.dir n u cs) parent s) := by
    intro parent s n u cs hskip hp
    simp only [walkEntry, hskip, if_true]
    exact h s (parent ++ [n]) (by simp) hp
  have c3 : ∀ (parent : Path) (s : St) (n : Name) (cs : FSList),
      ¬(processDir ctx tree s (parent ++ [n])).2 = true →
      P s → P (walkEntry ctx tree (.dir n true cs) parent s) := by
    intro parent s n cs hskip hp
    simp only [walkEntry, hskip, if_false, if_true]
    exact h s (parent ++ [n]) (by simp) hp
  have c4 : ∀ (parent : Path) (s : St) (n : Name) (u : Bool) (cs : FSList),
      ¬(processDir ctx tree s (parent ++ [n])).2 = true →
      ¬u = true →
      (P (processDir ctx tree s (parent ++ [n])).1 →
        P (walkEntries ctx tree cs (parent ++ [n])
            (processDir ctx tree s (parent ++ [n])).1)) →
      P s → P (walkEntry ctx tree (.dir n u cs) parent s) := by
    intro parent s n u cs hskip hu ih hp
    simp only [walkEntry, hskip, if_false, hu]
    exact ih (h s (parent ++ [n]) (by simp) hp)
  have c5 : ∀ (parent : Path) (s : St),
      P s → P (walkEntries ctx tree .nil parent s) := by
    intro _ _ hp
    simpa [walkEntries] using hp
  have c6 : ∀ (parent : Path) (s : St) (e : FSEntry) (rest : FSList),
      (P s → P (walkEntry ctx tree e parent s)) →
      (P (walkEntry ctx tree e parent s) →
        P (walkEntries ctx tree rest parent (walkEntry ctx tree e parent s))) →
      P s → P (walkEntries ctx tree (.cons e rest) parent s) := by
    intro parent s e rest ih1 ih2 hp
    simp only [walkEntries]
    exact ih2 (ih1 hp)
  exact ⟨walkEntry.induct ctx tree
      (fun e parent s => P s → P (walkEntry ctx tree e parent s))
      (fun l parent s => P s → P (walkEntries ctx tree l parent s))
      c1 c2 c3 c4 c5 c6,
    walkEntries.induct ctx tree
      (fun e parent s => P s → P (walkEntry ctx tree e parent s))
      (fun l parent s => P s → P (walkEntries ctx tree l parent s))
      c1 c2 c3 c4 c5 c6⟩

end WalkPreserve

/-! ## Narrowed patterns stay within the configured set -/

theorem narrowPatterns_subset {ctx : Ctx} (hctx : ctxWF ctx) (d : Lang) :
    ∀ pat ∈ narrowPatterns ctx d, pat ∈ ctx.patterns := by
  intro pat hpat
  unfold narrowPatterns at hpat
  split at hpat
  · rename_i hd
    rcases hl : lookupAssoc ctx.langToPatterns d with _ | lp
    · rw [hl] at hpat
      exact hpat
    · rw [hl] at hpat
      unfold lookupAssoc at hl
      rcases hq : ctx.langToPatterns.find? (fun q => decide (q.1 = d))
        with _ | q
      · rw [hq] at hl
        exact absurd hl (by simp)
      · rw [hq] at hl
        have hq2 : q.2 = lp := by simpa using hl
        exact hctx.1 q (List.mem_of_find?_eq_some hq) pat (hq2 ▸ hpat)
  · exact hpat

/-! ## Per-phase effects on the finding list -/

theorem detect1_findings (s : St) (pr : Path) (depth : Nat) (ex : Bool) :
    (detect1 s pr depth ex).findings = s.findings := by
  unfold detect1 St.cacheStore
  split <;> split <;> rfl

theorem detect2_findings (ctx : Ctx) (tree : FSList) (s : St) (pr : Path)
    (depth : Nat) :
    (detect2 ctx tree s pr depth).1.findings = s.findings := by
  unfold detect2 St.cacheStore
  dsimp only
  split
  · split <;> rfl
  · split
    · split <;> rfl
    · rfl

theorem detect3_findings (ctx : Ctx) (tree : FSList) (s : St) (path pr : Path)
    (depth : Nat) (detected : Lang) (maxDepth : Nat) :
    (detect3 ctx tree s path pr depth detected maxDepth).1.findings
      = s.findings := by
  unfold detect3 St.cacheStore
  dsimp only
  split
  · split <;> rfl
  · rfl

theorem detect4_findings_mem (ctx : Ctx) (tree : FSList) (s : St)
    (path pr : Path) (depth maxDepth : Nat) (detected : Lang) :
    ∀ f ∈ (detect4 ctx tree s path pr depth maxDepth detected).1.findings,
      f ∈ s.findings
      ∨ (f.pattern = [] ∧ f.projectRoot = f.path ∧ f.path = path ∧
          depth = 0) := by
  intro f hf
  unfold detect4 St.cacheStore at hf
  dsimp only at hf
  split at hf
  · split at hf
    · split at hf
      · rename_i hd0
        simp only [List.mem_append, List.mem_singleton] at hf
        rcases hf with hf | hf
        · exact Or.inl hf
        · subst hf
          exact Or.inr ⟨rfl, rfl, rfl, hd0⟩
      · exact Or.inl hf
    · exact Or.inl hf
  · exact Or.inl hf

theorem detect5_findings_mem (s : St) (pr : Path) (depth maxDepth : Nat) :
    ∀ f ∈ (detect5 s pr depth maxDepth).findings,
      f ∈ s.findings
      ∨ (f.pattern = [] ∧ f.projectRoot = f.path ∧ f.path = pr) := by
  intro f hf
  unfold detect5 at hf
  split at hf
  · split at hf
    · split at hf
      · simp only [List.mem_append, List.mem_singleton] at hf
        rcases hf with hf | hf
        · exact Or.inl hf
        · subst hf
          exact Or.inr ⟨rfl, rfl, rfl⟩
      · exact Or.inl hf
    · exact Or.inl hf
  · exact Or.inl hf

theorem fallbackPhase_findings_mem (ctx : Ctx) (s : St) (path pr : Path)
    (depth : Nat) (detected : Lang) (m : Bool) :
    ∀ f ∈ (fallbackPhase ctx s path pr depth detected m).findings,
      f ∈ s.findings
      ∨ (f.pattern = [] ∧ f.projectRoot = f.path ∧ f.path = pr) := by
  intro f hf
  unfold fallbackPhase at hf
  split at hf
  · split at hf
    · split at hf
      · simp only [List.mem_append, List.mem_singleton] at hf
        rcases hf with hf | hf
        · exact Or.inl hf
        · subst hf
          exact Or.inr ⟨rfl, rfl, rfl⟩
      · exact Or.inl hf
    · exact Or.inl hf
  · exact Or.inl hf

theorem matchPhase_findings_mem (ctx : Ctx) (tree : FSList) (s : St)
    (path : Path) (dirName : Name) (pats : List Name) (detected : Lang)
    (prOpt : Option Path) :
    ∀ f ∈ (matchPhase ctx tree s path dirName pats detected prOpt).1.findings,
      f ∈ s.findings
      ∨ (∃ pat ∈ pats, matchPattern dirName pat = true ∧ f.pattern = pat
          ∧ f.path = path
          ∧ f.projectRoot = (match prOpt with
              | some pr => pr
              | none => path.dropLast)) := by
  intro f hf
  unfold matchPhase at hf
  dsimp only at hf
  split at hf
  · rename_i pat hfind
    simp only [List.mem_append, List.mem_singleton] at hf
    rcases hf with hf | hf
    · exact Or.inl hf
    · subst hf
      have hmem := List.mem_of_find?_eq_some hfind
      have hmatch := List.find?_some hfind
      exact Or.inr ⟨pat, hmem, hmatch, rfl, rfl, rfl⟩
  · exact Or.inl hf

/-! ## Per-phase untouched fields -/

theorem detect1_const (s : St) (pr : Path) (depth : Nat) (ex : Bool) :
    (detect1 s pr depth ex).depth0NoLang = s.depth0NoLang
    ∧ (detect1 s pr depth ex).findingsByPath = s.findingsByPath
    ∧ (detect1 s pr depth ex).probes = s.probes
    ∧ (detect1 s pr depth ex).visited = s.visited := by
  unfold detect1 St.cacheStore
  split <;> split <;> exact ⟨rfl, rfl, rfl, rfl⟩

theorem detect2_const (ctx : Ctx) (tree : FSList) (s : St) (pr : Path)
    (depth : Nat) :
    (detect2 ctx tree s pr depth).1.depth0Scanned = s.depth0Scanned
    ∧ (detect2 ctx tree s pr depth).1.findingsByPath = s.findingsByPath
    ∧ (detect2 ctx tree s pr depth).1.excludedDirs = s.excludedDirs
    ∧ (detect2 ctx tree s pr depth).1.visited = s.visited := by
  unfold detect2 St.cacheStore
  dsimp only
  split
  · split <;> exact ⟨rfl, rfl, rfl, rfl⟩
  · split
    · split <;> exact ⟨rfl, rfl, rfl, rfl⟩
    · exact ⟨rfl, rfl, rfl, rfl⟩

theorem detect3_const (ctx : Ctx) (tree : FSList) (s : St) (path pr : Path)
    (depth : Nat) (detected : Lang) (maxDepth : Nat) :
    (detect3 ctx tree s path pr depth detected maxDepth).1.depth0NoLang
        = s.depth0NoLang
    ∧ (detect3 ctx tree s path pr depth detected maxDepth).1.depth0Scanned
        = s.depth0Scanned
    ∧ (detect3 ctx tree s path pr depth detected maxDepth).1.findingsByPath
        = s.findingsByPath
    ∧ (detect3 ctx tree s path pr depth detected maxDepth).1.excludedDirs
        = s.excludedDirs
    ∧ (detect3 ctx tree s path pr depth detected maxDepth).1.visited
        = s.visited := by
  unfold detect3 St.cacheStore
  dsimp only
  split
  · split <;> exact ⟨rfl, rfl, rfl, rfl, rfl⟩
  · exact ⟨rfl, rfl, rfl, rfl, rfl⟩

theorem detect4_const (ctx : Ctx) (tree : FSList) (s : St) (path pr : Path)
    (depth maxDepth : Nat) (detected : Lang) :
    (detect4 ctx tree s path pr depth maxDepth detected).1.depth0Scanned
        = s.depth0Scanned
    ∧ (detect4 ctx tree s path pr depth maxDepth detected).1.findingsByPath
        = s.findingsByPath
    ∧ (detect4 ctx tree s path pr depth maxDepth detected).1.excludedDirs
        = s.excludedDirs
    ∧ (detect4 ctx tree s path pr depth maxDepth detected).1.visited
        = s.visited := by
  unfold detect4 St.cacheStore
  dsimp only
  split
  · split
    · split <;> exact ⟨rfl, rfl, rfl, rfl⟩
    · exact ⟨rfl, rfl, rfl, rfl⟩
  · exact ⟨rfl, rfl, rfl, rfl⟩

theorem detect5_const (s : St) (pr : Path) (depth maxDepth : Nat) :
    (detect5 s pr depth maxDepth).langCache = s.langCache
    ∧ (detect5 s pr depth maxDepth).depth0Scanned = s.depth0Scanned
    ∧ (detect5 s pr depth maxDepth).findingsByPath = s.findingsByPath
    ∧ (detect5 s pr depth maxDepth).excludedDirs = s.excludedDirs
    ∧ (detect5 s pr depth maxDepth).probes = s.probes
    ∧ (detect5 s pr depth maxDepth).cacheWrites = s.cacheWrites
    ∧ (detect5 s pr depth maxDepth).visited = s.visited := by
  unfold detect5
  split
  · split
    · split <;> exact ⟨rfl, rfl, rfl, rfl, rfl, rfl, rfl⟩
    · exact ⟨rfl, rfl, rfl, rfl, rfl, rfl, rfl⟩
  · exact ⟨rfl, rfl, rfl, rfl, rfl, rfl, rfl⟩

theorem matchPhase_const (ctx : Ctx) (tree : FSList) (s : St) (path : Path)
    (dirName : Name) (pats : List Name) (detected : Lang)
    (prOpt : Option Path) :
    (matchPhase ctx tree s path dirName pats detected prOpt).1.langCache
        = s.langCache
    ∧ (matchPhase ctx tree s path dirName pats detected prOpt).1.depth0NoLang
        = s.depth0NoLang
    ∧ (matchPhase ctx tree s path dirName pats detected prOpt).1.depth0Scanned
        = s.depth0Scanned
    ∧ (matchPhase ctx tree s path dirName pats detected prOpt).1.excludedDirs
        = s.excludedDirs
    ∧ (matchPhase ctx tree s path dirName pats detected prOpt).1.probes
        = s.probes
    ∧ (matchPhase ctx tree s path dirName pats detected prOpt).1.cacheWrites
        = s.cacheWrites
    ∧ (matchPhase ctx tree s path dirName pats detected prOpt).1.visited
        = s.visited := by
  unfold matchPhase
  dsimp only
  split <;> exact ⟨rfl, rfl, rfl, rfl, rfl, rfl, rfl⟩

theorem fallbackPhase_const (ctx : Ctx) (s : St) (path pr : Path)
    (depth : Nat) (detected : Lang) (m : Bool) :
    (fallbackPhase ctx s path pr depth detected m).langCache = s.langCache
    ∧ (fallbackPhase ctx s path pr depth detected m).depth0Scanned
        = s.depth0Scanned
    ∧ (fallbackPhase ctx s path pr depth detected m).findingsByPath
        = s.findingsByPath
    ∧ (fallbackPhase ctx s path pr depth detected m).excludedDirs
        = s.excludedDirs
    ∧ (fallbackPhase ctx s path pr depth detected m).probes = s.probes
    ∧ (fallbackPhase ctx s path pr depth detected m).cacheWrites
        = s.cacheWrites
    ∧ (fallbackPhase ctx s path pr depth detected m).visited = s.visited := by
  unfold fallbackPhase
  split
  · split
    · split <;> exact ⟨rfl, rfl, rfl, rfl, rfl, rfl, rfl⟩
    · exact ⟨rfl, rfl, rfl, rfl, rfl, rfl, rfl⟩
  · exact ⟨rfl, rfl, rfl, rfl, rfl, rfl, rfl⟩

/-- The callback appends exactly the processed directory to the ghost
`visited` log. -/
theorem processDir_visited (ctx : Ctx) (tree : FSList) (s : St)
    (path : Path) :
    (processDir ctx tree s path).1.visited = s.visited ++ [path] := by
  unfold processDir
  dsimp only
  split
  · rfl
  · split
    · split
      · rw [(matchPhase_const _ _ _ _ _ _ _ _).2.2.2.2.2.2,
          (detect5_const _ _ _ _).2.2.2.2.2.2,
          (detect4_const _ _ _ _ _ _ _ _).2.2.2,
          (detect3_const _ _ _ _ _ _ _ _).2.2.2.2,
          (detect2_const _ _ _ _ _).2.2.2,
          (detect1_const _ _ _ _).2.2.2]
      · rw [(fallbackPhase_const _ _ _ _ _ _ _).2.2.2.2.2.2,
          (matchPhase_const _ _ _ _ _ _ _ _).2.2.2.2.2.2,
          (detect5_const _ _ _ _).2.2.2.2.2.2,
          (detect4_const _ _ _ _ _ _ _ _).2.2.2,
          (detect3_const _ _ _ _ _ _ _ _).2.2.2.2,
          (detect2_const _ _ _ _ _).2.2.2,
          (detect1_const _ _ _ _).2.2.2]
    · rw [(matchPhase_const _ _ _ _ _ _ _ _).2.2.2.2.2.2]

/-! ## The shape of every finding's `projectRoot` (claim C6) -/

theorem projectRootOf_length (path : Path) (m : Bool) :
    (projectRootOf path (path.length - 1) m).length ≤ 1 := by
  unfold projectRootOf
  split
  · split
    · simp
    · omega
  · simp

theorem detect1_shape {ctx : Ctx} (s : St) (pr : Path) (depth : Nat)
    (ex : Bool) (hP : ∀ f ∈ s.findings, FindingShape ctx f) :
    ∀ f ∈ (detect1 s pr depth ex).findings, FindingShape ctx f := by
  rw [detect1_findings]
  exact hP

theorem detect2_shape {ctx : Ctx} (tree : FSList) (s : St) (pr : Path)
    (depth : Nat) (hP : ∀ f ∈ s.findings, FindingShape ctx f) :
    ∀ f ∈ (detect2 ctx tree s pr depth).1.findings, FindingShape ctx f := by
  rw [detect2_findings]
  exact hP

theorem detect3_shape {ctx : Ctx} (tree : FSList) (s : St) (path pr : Path)
    (depth : Nat) (detected : Lang) (maxDepth : Nat)
    (hP : ∀ f ∈ s.findings, FindingShape ctx f) :
    ∀ f ∈ (detect3 ctx tree s path pr depth detected maxDepth).1.findings,
      FindingShape ctx f := by
  rw [detect3_findings]
  exact hP

theorem detect4_shape {ctx : Ctx} (tree : FSList) (s : St) (path pr : Path)
    (depth maxDepth : Nat) (detected : Lang) (hd : depth = 0 → path.length ≤ 1)
    (hP : ∀ f ∈ s.findings, FindingShape ctx f) :
    ∀ f ∈ (detect4 ctx tree s path pr depth maxDepth detected).1.findings,
      FindingShape ctx f := by
  intro f hf
  rcases detect4_findings_mem ctx tree s path pr depth maxDepth detected f hf
    with h | ⟨hpat, hpp, hpath, hdep⟩
  · exact hP f h
  · refine ⟨fun _ => ⟨hpp, ?_⟩, fun hne => absurd hpat hne⟩
    rw [hpath]
    exact hd hdep

theorem detect5_shape {ctx : Ctx} (s : St) (pr : Path)
    (depth maxDepth : Nat) (hpr : pr.length ≤ 1)
    (hP : ∀ f ∈ s.findings, FindingShape ctx f) :
    ∀ f ∈ (detect5 s pr depth maxDepth).findings, FindingShape ctx f := by
  intro f hf
  rcases detect5_findings_mem s pr depth maxDepth f hf
    with h | ⟨hpat, hpp, hpath⟩
  · exact hP f h
  · refine ⟨fun _ => ⟨hpp, ?_⟩, fun hne => absurd hpat hne⟩
    rw [hpath]
    exact hpr

theorem fallbackPhase_shape {ctx : Ctx} (s : St) (path pr : Path)
    (depth : Nat) (detected : Lang) (m : Bool) (hpr : pr.length ≤ 1)
    (hP : ∀ f ∈ s.findings, FindingShape ctx f) :
    ∀ f ∈ (fallbackPhase ctx s path pr depth detected m).findings,
      FindingShape ctx f := by
  intro f hf
  rcases fallbackPhase_findings_mem ctx s path pr depth detected m f hf
    with h | ⟨hpat, hpp, hpath⟩
  · exact hP f h
  · refine ⟨fun _ => ⟨hpp, ?_⟩, fun hne => absurd hpat hne⟩
    rw [hpath]
    exact hpr

theorem matchPhase_shape {ctx : Ctx} (tree : FSList) (s : St) (path : Path)
    (dirName : Name) (pats : List Name) (detected : Lang) (prOpt : Option Path)
    (hne : ∀ pat ∈ pats, pat ≠ [])
    (hproj : ∀ pat ∈ pats, matchPattern dirName pat = true →
      (match prOpt with
        | some pr => pr
        | none => path.dropLast) =
      (if ctx.detectLang then
        (if path.length = 1 then ([] : Path) else [path.headD []])
      else path.dropLast))
    (hP : ∀ f ∈ s.findings, FindingShape ctx f) :
    ∀ f ∈ (matchPhase ctx tree s path dirName pats detected prOpt).1.findings,
      FindingShape ctx f := by
  intro f hf
  rcases matchPhase_findings_mem ctx tree s path dirName pats detected prOpt
    f hf with h | ⟨pat, hm, hmp, hpat, hpath, hpp⟩
  · exact hP f h
  · constructor
    · intro h0
      exact absurd (hpat ▸ h0) (hne pat hm)
    · intro _
      rw [hpp, hpath]
      exact hproj pat hm hmp

theorem projectRootOf_match_eq (ctx : Ctx) (path : Path) (hp : path ≠ [])
    (pat : Name) (hpat : pat ∈ ctx.patterns)
    (hm : matchPattern (path.getLastD []) pat = true) :
    projectRootOf path (path.length - 1)
        (ctx.patterns.any (matchPattern (path.getLastD []))) =
      if path.length = 1 then ([] : Path) else [path.headD []] := by
  have hany : ctx.patterns.any (matchPattern (path.getLastD [])) = true :=
    List.any_eq_true.2 ⟨pat, hpat, hm⟩
  have hlen : 1 ≤ path.length := by
    cases path with
    | nil => exact absurd rfl hp
    | cons a l => simp
  unfold projectRootOf
  rw [hany]
  split
  · rename_i h0
    rw [if_pos (show path.length = 1 by omega)]
    simp
  · rename_i h0
    rw [if_neg (show ¬path.length = 1 by omega)]

theorem processDir_shape {ctx : Ctx} (tree : FSList) (hctx : ctxWF ctx)
    (s : St) (path : Path) (hp : path ≠ [])
    (hP : ∀ f ∈ s.findings, FindingShape ctx f) :
    ∀ f ∈ (processDir ctx tree s path).1.findings, FindingShape ctx f := by
  have hP' : ∀ f ∈ (St.mk s.findings s.langCache s.depth0NoLang
      s.depth0Scanned s.findingsByPath s.excludedDirs s.probes s.cacheWrites
      (s.visited ++ [path])).findings, FindingShape ctx f := hP
  have hd4 : path.length - 1 = 0 → path.length ≤ 1 := by omega
  have hlen5 : (projectRootOf path (path.length - 1)
      (ctx.patterns.any (matchPattern (path.getLastD [])))).length ≤ 1 :=
    projectRootOf_length path _
  have hne : ∀ (d : Lang), ∀ pat ∈ narrowPatterns ctx d, pat ≠ [] := by
    intro d pat hmem he
    exact hctx.2 (he ▸ narrowPatterns_subset hctx d pat hmem)
  have hne0 : ∀ pat ∈ ctx.patterns, pat ≠ [] := by
    intro pat hmem he
    exact hctx.2 (he ▸ hmem)
  intro f hf
  unfold processDir at hf
  dsimp only at hf
  split at hf
  · exact hP f hf
  · split at hf
    · rename_i hdl
      have hproj : ∀ (d : Lang), ∀ pat ∈ narrowPatterns ctx d,
          matchPattern (path.getLastD []) pat = true →
          (match some (projectRootOf path (path.length - 1)
              (ctx.patterns.any (matchPattern (path.getLastD [])))) with
            | some pr => pr
            | none => path.dropLast) =
          (if ctx.detectLang then
            (if path.length = 1 then ([] : Path) else [path.headD []])
          else path.dropLast) := by
        intro d pat hmem hm
        rw [if_pos hdl]
        exact projectRootOf_match_eq ctx path hp pat
          (narrowPatterns_subset hctx d pat hmem) hm
      split at hf
      · exact matchPhase_shape tree _ path _ _ _ _ (hne _) (hproj _)
          (detect5_shape _ _ _ _ hlen5
            (detect4_shape tree _ path _ _ _ _ hd4
              (detect3_shape tree _ path _ _ _ _
                (detect2_shape tree _ _ _
                  (detect1_shape _ _ _ _ hP'))))) f hf
      · exact fallbackPhase_shape _ path _ _ _ _ hlen5
          (matchPhase_shape tree _ path _ _ _ _ (hne _) (hproj _)
            (detect5_shape _ _ _ _ hlen5
              (detect4_shape tree _ path _ _ _ _ hd4
                (detect3_shape tree _ path _ _ _ _
                  (detect2_shape tree _ _ _
                    (detect1_shape _ _ _ _ hP')))))) f hf
    · rename_i hdl
      have hproj0 : ∀ pat ∈ ctx.patterns,
          matchPattern (path.getLastD []) pat = true →
          (match (none : Option Path) with
            | some pr => pr
            | none => path.dropLast) =
          (if ctx.detectLang then
            (if path.length = 1 then ([] : Path) else [path.headD []])
          else path.dropLast) := by
        intro pat _ _
        rw [if_neg hdl]
      exact matchPhase_shape tree _ path _ _ _ _ hne0 hproj0 hP' f hf

theorem setInsert_mem {l : List Path} {p r : Path}
    (hr : r ∈ setInsert l p) : r ∈ l ∨ r = p := by
  unfold setInsert at hr
  split at hr
  · exact Or.inl hr
  · rcases List.mem_cons.1 hr with h | h
    · exact Or.inr h
    · exact Or.inl h

theorem detect1_scanned_mem (s : St) (pr : Path) (depth : Nat) (ex : Bool) :
    ∀ r ∈ (detect1 s pr depth ex).depth0Scanned,
      r ∈ s.depth0Scanned ∨ r = pr := by
  intro r hr
  unfold detect1 St.cacheStore at hr
  split at hr <;> split at hr <;>
    first
      | exact setInsert_mem hr
      | exact Or.inl hr

theorem processDir_scanned {ctx : Ctx} {tree : FSList} (s : St) (path : Path)
    (hP : ∀ r ∈ s.depth0Scanned, r.length ≤ 1) :
    ∀ r ∈ (processDir ctx tree s path).1.depth0Scanned, r.length ≤ 1 := by
  intro r hr
  unfold processDir at hr
  dsimp only at hr
  split at hr
  · exact hP r hr
  · split at hr
    · split at hr
      · rw [(matchPhase_const _ _ _ _ _ _ _ _).2.2.1,
          (detect5_const _ _ _ _).2.1,
          (detect4_const _ _ _ _ _ _ _ _).1,
          (detect3_const _ _ _ _ _ _ _ _).2.1,
          (detect2_const _ _ _ _ _).1] at hr
        rcases detect1_scanned_mem _ _ _ _ r hr with h | h
        · exact hP r h
        · rw [h]
          exact projectRootOf_length path _
      · rw [(fallbackPhase_const _ _ _ _ _ _ _).2.1,
          (matchPhase_const _ _ _ _ _ _ _ _).2.2.1,
          (detect5_const _ _ _ _).2.1,
          (detect4_const _ _ _ _ _ _ _ _).1,
          (detect3_const _ _ _ _ _ _ _ _).2.1,
          (detect2_const _ _ _ _ _).1] at hr
        rcases detect1_scanned_mem _ _ _ _ r hr with h | h
        · exact hP r h
        · rw [h]
          exact projectRootOf_length path _
    · rw [(matchPhase_const _ _ _ _ _ _ _ _).2.2.1] at hr
      exact hP r hr

/-- **C6 (as amended).**  Status findings (empty `pattern`) always have
`projectRoot` equal to their own `path`, which is a depth-0 directory or
the scan root; cache-match findings get the scan root as `projectRoot`
when matched at depth 0 and the depth-0 ancestor when matched deeper (with
language detection on), and the parent directory when detection is off. -/
theorem C6_amended_projectRoot_shape :
    ∀ (ctx : Ctx) (tree : FSList), ctxWF ctx →
    ∀ f ∈ scanDirectory ctx tree,
      (f.pattern = [] → f.projectRoot = f.path ∧ f.path.length ≤ 1)
      ∧ (f.pattern ≠ [] → f.projectRoot =
          (if ctx.detectLang then
            (if f.path.length = 1 then ([] : Path) else [f.path.headD []])
          else f.path.dropLast)) := by
  intro ctx tree hctx
  have hstep : ∀ s path, path ≠ [] →
      ((∀ f ∈ s.findings, FindingShape ctx f)
        ∧ (∀ r ∈ s.depth0Scanned, r.length ≤ 1)) →
      ((∀ f ∈ (processDir ctx tree s path).1.findings, FindingShape ctx f)
        ∧ (∀ r ∈ (processDir ctx tree s path).1.depth0Scanned,
            r.length ≤ 1)) :=
    fun s path hp h =>
      ⟨processDir_shape tree hctx s path hp h.1, processDir_scanned s path h.2⟩
  have hw := (walk_preserves ctx tree _ hstep).2 tree [] St.init
    ⟨by simp [St.init], by simp [St.init]⟩
  intro f hf
  unfold scanDirectory scanSt at hf
  dsimp only at hf
  rw [List.mem_append] at hf
  rcases hf with hf | hf
  · exact hw.1 f hf
  · unfold trailingFindings at hf
    rw [List.mem_map] at hf
    obtain ⟨r, hr, rfl⟩ := hf
    rw [List.mem_filter] at hr
    exact ⟨fun _ => ⟨rfl, hw.2 r hr.1⟩, fun hne => absurd rfl hne⟩

/-- Witness for `C6_amended_projectRoot_shape` at the concrete depth-0
cache-match scan. -/
theorem C6_amended_projectRoot_shape_witness :
    ctxWF (ctxNode 1)
    ∧ (let f0 : Finding :=
        { path := [str "node_modules"], projectRoot := [], sizeBytes := 3,
          items := 1, pattern := str "node_modules",
          language := str "node", err := false, modMax := 2 }
       f0 ∈ scanDirectory (ctxNode 1) treeDepth0Cache
       ∧ ((f0.pattern = [] → f0.projectRoot = f0.path ∧ f0.path.length ≤ 1)
          ∧ (f0.pattern ≠ [] → f0.projectRoot =
              (if (ctxNode 1).detectLang then
                (if f0.path.length = 1 then ([] : Path)
                 else [f0.path.headD []])
              else f0.path.dropLast)))) :=
  ⟨by unfold ctxWF; decide, by decide,
    C6_amended_projectRoot_shape (ctxNode 1) treeDepth0Cache
      (by unfold ctxWF; decide) _ (by decide)⟩

/-! ## Association-list and set toolbox -/

theorem lookupAssoc_cons {β : Type} (k p : Path) (v : β)
    (c : List (Path × β)) :
    lookupAssoc ((k, v) :: c) p =
      if p = k then some v else lookupAssoc c p := by
  unfold lookupAssoc
  by_cases h : p = k
  · subst h
    simp
  · have hne : ¬((fun q : Path × β => decide (q.1 = p)) (k, v) = true) := by
      simp only [decide_eq_true_eq]
      exact fun hh => h hh.symm
    rw [if_neg h]
    have hfc : List.find? (fun q : Path × β => decide (q.1 = p)) ((k, v) :: c)
        = List.find? (fun q : Path × β => decide (q.1 = p)) c :=
      List.find?_cons_of_neg _ hne
    rw [hfc]

theorem cacheStore_langCache (s : St) (k : Path) (v : Lang) :
    (s.cacheStore k v).langCache = (k, v) :: s.langCache := rfl

theorem cacheStore_cacheWrites (s : St) (k : Path) (v : Lang) :
    (s.cacheStore k v).cacheWrites = s.cacheWrites ++ [(k, v)] := rfl

theorem WInv_store {s : St} (k : Path) (v : Lang)
    (hk : (lookupAssoc s.langCache k).isSome = false) (hw : WInv s) :
    WInv (s.cacheStore k v) := by
  constructor
  · rw [cacheStore_cacheWrites]
    rw [List.map_append]
    refine List.Nodup.append hw.1 (by simp) ?_
    intro a ha hb
    simp only [List.map_cons, List.map_nil, List.mem_singleton] at hb
    subst hb
    have := hw.2 a ha
    rw [this] at hk
    exact absurd hk (by simp)
  · intro p hp
    rw [cacheStore_cacheWrites, List.map_append] at hp
    rw [cacheStore_langCache, lookupAssoc_cons]
    rcases List.mem_append.1 hp with h | h
    · split
      · simp
      · exact hw.2 p h
    · simp only [List.map_cons, List.map_nil, List.mem_singleton] at h
      subst h
      simp

/-- Updating fields other than `langCache`/`cacheWrites` keeps `WInv`. -/
theorem WInv_congr {s s' : St} (hc : s'.langCache = s.langCache)
    (hw : s'.cacheWrites = s.cacheWrites) (h : WInv s) : WInv s' := by
  unfold WInv
  rw [hc, hw]
  exact h

/-! ## Per-phase cache/write characterizations -/

theorem detect1_spec (s : St) (pr : Path) (depth : Nat) (ex : Bool) :
    ((detect1 s pr depth ex).langCache = s.langCache
      ∧ (detect1 s pr depth ex).cacheWrites = s.cacheWrites
      ∧ (detect1 s pr depth ex).excludedDirs = s.excludedDirs)
    ∨ (ex = true ∧ depth = 0
      ∧ (detect1 s pr depth ex).langCache = (pr, []) :: s.langCache
      ∧ (detect1 s pr depth ex).cacheWrites = s.cacheWrites ++ [(pr, [])]
      ∧ (detect1 s pr depth ex).excludedDirs = setInsert s.excludedDirs pr)
    := by
  by_cases hd : depth = 0
  · by_cases hex : ex = true
    · refine Or.inr ⟨hex, hd, ?_, ?_, ?_⟩ <;>
        simp [detect1, St.cacheStore, hd, hex]
    · refine Or.inl ⟨?_, ?_, ?_⟩ <;> simp [detect1, St.cacheStore, hd, hex]
  · refine Or.inl ⟨?_, ?_, ?_⟩ <;> simp [detect1, St.cacheStore, hd]

theorem detect2_spec (ctx : Ctx) (tree : FSList) (s : St) (pr : Path)
    (depth : Nat) :
    ((detect2 ctx tree s pr depth).1.langCache = s.langCache
      ∧ (detect2 ctx tree s pr depth).1.cacheWrites = s.cacheWrites
      ∧ ((lookupAssoc s.langCache pr).isSome = true ∨ pr ∈ s.excludedDirs))
    ∨ (lookupAssoc s.langCache pr = none ∧ pr ∉ s.excludedDirs
      ∧ (detect2 ctx tree s pr depth).2 = detectAt ctx tree pr
      ∧ (detect2 ctx tree s pr depth).1.langCache
          = (pr, detectAt ctx tree pr) :: s.langCache
      ∧ (detect2 ctx tree s pr depth).1.cacheWrites
          = s.cacheWrites ++ [(pr, detectAt ctx tree pr)]) := by
  unfold detect2 St.cacheStore
  dsimp only
  split
  · rename_i v hv
    constructor
    split <;> exact ⟨rfl, rfl, Or.inl (by rw [hv]; simp)⟩
  · rename_i hv
    split
    · rename_i hex
      refine Or.inr ⟨hv, hex, ?_⟩
      split <;> exact ⟨rfl, rfl, rfl⟩
    · rename_i hex
      exact Or.inl ⟨rfl, rfl, Or.inr (by simpa using hex)⟩

theorem detect3_spec (ctx : Ctx) (tree : FSList) (s : St) (path pr : Path)
    (depth : Nat) (detected : Lang) (maxDepth : Nat) :
    ((detect3 ctx tree s path pr depth detected maxDepth).1.langCache
        = s.langCache
      ∧ (detect3 ctx tree s path pr depth detected maxDepth).1.cacheWrites
        = s.cacheWrites
      ∧ (detect3 ctx tree s path pr depth detected maxDepth).2 = detected)
    ∨ (detected = [] ∧ pr ∉ s.excludedDirs ∧ detectAt ctx tree path ≠ []
      ∧ (detect3 ctx tree s path pr depth detected maxDepth).1.langCache
          = (path, detectAt ctx tree path) :: s.langCache
      ∧ (detect3 ctx tree s path pr depth detected maxDepth).1.cacheWrites
          = s.cacheWrites ++ [(path, detectAt ctx tree path)]
      ∧ (detect3 ctx tree s path pr depth detected maxDepth).2
          = detectAt ctx tree path) := by
  unfold detect3 St.cacheStore
  dsimp only
  split
  · rename_i hcond
    split
    · rename_i hcur
      exact Or.inr ⟨hcond.1, hcond.2.2, hcur, rfl, rfl, rfl⟩
    · exact Or.inl ⟨rfl, rfl, rfl⟩
  · exact Or.inl ⟨rfl, rfl, rfl⟩

theorem detect4_spec (ctx : Ctx) (tree : FSList) (s : St) (path pr : Path)
    (depth maxDepth : Nat) (detected : Lang) :
    ((detect4 ctx tree s path pr depth maxDepth detected).1.langCache
        = s.langCache
      ∧ (detect4 ctx tree s path pr depth maxDepth detected).1.cacheWrites
        = s.cacheWrites
      ∧ (detect4 ctx tree s path pr depth maxDepth detected).2 = detected)
    ∨ (detected = [] ∧ pr ∉ s.excludedDirs ∧ detectAt ctx tree path ≠ []
      ∧ (detect4 ctx tree s path pr depth maxDepth detected).1.langCache
          = (path, detectAt ctx tree path) :: s.langCache
      ∧ (detect4 ctx tree s path pr depth maxDepth detected).1.cacheWrites
          = s.cacheWrites ++ [(path, detectAt ctx tree path)]
      ∧ (detect4 ctx tree s path pr depth maxDepth detected).2
          = detectAt ctx tree path) := by
  unfold detect4 St.cacheStore
  dsimp only
  split
  · rename_i hcond
    split
    · rename_i hcur
      split <;> exact Or.inl ⟨rfl, rfl, rfl⟩
    · rename_i hcur
      exact Or.inr ⟨hcond.2.1, hcond.2.2, hcur, rfl, rfl, rfl⟩
  · exact Or.inl ⟨rfl, rfl, rfl⟩

theorem setInsert_self (l : List Path) (p : Path) : p ∈ setInsert l p := by
  unfold setInsert
  split
  · assumption
  · exact List.mem_cons_self p l

theorem keys_cons_sub {c : List (Path × Lang)} {k : Path} {v : Lang}
    (S : Path → Prop) (hk : S k)
    (hc : ∀ p, (lookupAssoc c p).isSome = true → S p) :
    ∀ p, (lookupAssoc ((k, v) :: c) p).isSome = true → S p := by
  intro p hp
  rw [lookupAssoc_cons] at hp
  split at hp
  · rename_i he
    exact he ▸ hk
  · exact hc p hp

/-- Keys discipline and write-once invariant through the four `detect`
phases of the callback.  `s0` is the state entering the detection block
(the current directory already appended to the ghost `visited`); the
intermediate states are abstracted by their defining equations. -/
theorem detectChain_master (ctx : Ctx) (tree : FSList) (s0 s1 : St)
    (r2 r3 r4 : St × Lang) (path pr : Path) (depth maxDepth : Nat) (ex : Bool)
    (hs1 : s1 = detect1 s0 pr depth ex)
    (h2 : r2 = detect2 ctx tree s1 pr depth)
    (h3 : r3 = detect3 ctx tree r2.1 path pr depth r2.2 maxDepth)
    (h4 : r4 = detect4 ctx tree r3.1 path pr depth maxDepth r3.2)
    (hprv : pr = [] ∨ pr ∈ s0.visited)
    (hpathv : path ∈ s0.visited)
    (hfreshKey : (lookupAssoc s0.langCache path).isSome = false)
    (hkeys : ∀ p, (lookupAssoc s0.langCache p).isSome = true →
      p = [] ∨ p ∈ s0.visited)
    (hprNoGit : NoGitPattern ctx → ex = true → depth = 0 → pr = path) :
    (∀ p, (lookupAssoc r4.1.langCache p).isSome = true →
      p = [] ∨ p ∈ s0.visited)
    ∧ (NoGitPattern ctx → WInv s0 → WInv r4.1) := by
  have hSpr : pr = [] ∨ pr ∈ s0.visited := hprv
  have hSpath : path = [] ∨ path ∈ s0.visited := Or.inr hpathv
  have spec1 := detect1_spec s0 pr depth ex
  rw [← hs1] at spec1
  have spec2 := detect2_spec ctx tree s1 pr depth
  rw [← h2] at spec2
  have spec3 := detect3_spec ctx tree r2.1 path pr depth r2.2 maxDepth
  rw [← h3] at spec3
  have spec4 := detect4_spec ctx tree r3.1 path pr depth maxDepth r3.2
  rw [← h4] at spec4
  have c2ex := (detect2_const ctx tree s1 pr depth).2.2.1
  rw [← h2] at c2ex
  have c3ex := (detect3_const ctx tree r2.1 path pr depth r2.2 maxDepth).2.2.2.1
  rw [← h3] at c3ex
  rcases spec1 with ⟨hc1, hw1, he1⟩ | ⟨hex1, hd1, hc1, hw1, he1⟩
  · -- detect1 left the cache alone
    rcases spec2 with ⟨hc2, hw2, _⟩ | ⟨hmiss2, hnex2, hr22, hc2, hw2⟩
    · -- detect2 hit the cache (or the root was excluded): no store
      rcases spec3 with ⟨hc3, hw3, hr32⟩ | ⟨hz3, hnex3, hcur3, hc3, hw3, hr32⟩
      · rcases spec4 with ⟨hc4, hw4, _⟩ | ⟨hz4, hnex4, hcur4, hc4, hw4, _⟩
        · -- no store anywhere
          constructor
          · intro p hps
            rw [hc4, hc3, hc2, hc1] at hps
            exact hkeys p hps
          · intro _ hW
            exact WInv_congr (by rw [hc4, hc3, hc2, hc1])
              (by rw [hw4, hw3, hw2, hw1]) hW
        · -- only detect4 stores, at the fresh key `path`
          constructor
          · intro p hps
            rw [hc4] at hps
            refine keys_cons_sub (fun p => p = [] ∨ p ∈ s0.visited)
              hSpath ?_ p hps
            intro p hps
            rw [hc3, hc2, hc1] at hps
            exact hkeys p hps
          · intro _ hW
            have hf3 : (lookupAssoc r3.1.langCache path).isSome = false := by
              rw [hc3, hc2, hc1]
              exact hfreshKey
            have hW3 : WInv r3.1 := WInv_congr (by rw [hc3, hc2, hc1])
              (by rw [hw3, hw2, hw1]) hW
            exact WInv_congr (by rw [hc4, cacheStore_langCache])
              (by rw [hw4, cacheStore_cacheWrites])
              (WInv_store path (detectAt ctx tree path) hf3 hW3)
      · -- only detect3 stores, at the fresh key `path`
        rcases spec4 with ⟨hc4, hw4, _⟩ | ⟨hz4, _, _, _, _, _⟩
        · constructor
          · intro p hps
            rw [hc4, hc3] at hps
            refine keys_cons_sub (fun p => p = [] ∨ p ∈ s0.visited)
              hSpath ?_ p hps
            intro p hps
            rw [hc2, hc1] at hps
            exact hkeys p hps
          · intro _ hW
            have hf2 : (lookupAssoc r2.1.langCache path).isSome = false := by
              rw [hc2, hc1]
              exact hfreshKey
            have hW2 : WInv r2.1 := WInv_congr (by rw [hc2, hc1])
              (by rw [hw2, hw1]) hW
            exact WInv_congr (by rw [hc4, hc3, cacheStore_langCache])
              (by rw [hw4, hw3, cacheStore_cacheWrites])
              (WInv_store path (detectAt ctx tree path) hf2 hW2)
        · -- detect3 stored a non-empty language, detect4 cannot fire
          exact absurd (hr32 ▸ hz4) hcur3
    · -- detect2 stores at the fresh key `pr`
      have hf1 : (lookupAssoc s1.langCache pr).isSome = false := by
        rw [hmiss2]
        rfl
      rcases spec3 with ⟨hc3, hw3, hr32⟩ | ⟨hz3, hnex3, hcur3, hc3, hw3, hr32⟩
      · rcases spec4 with ⟨hc4, hw4, _⟩ | ⟨hz4, hnex4, hcur4, hc4, hw4, _⟩
        · -- only the `pr` store
          constructor
          · intro p hps
            rw [hc4, hc3, hc2] at hps
            refine keys_cons_sub (fun p => p = [] ∨ p ∈ s0.visited)
              hSpr ?_ p hps
            intro p hps
            rw [hc1] at hps
            exact hkeys p hps
          · intro _ hW
            have hW1 : WInv s1 := WInv_congr hc1 hw1 hW
            exact WInv_congr (by rw [hc4, hc3, hc2, cacheStore_langCache])
              (by rw [hw4, hw3, hw2, cacheStore_cacheWrites])
              (WInv_store pr (detectAt ctx tree pr) hf1 hW1)
        · -- `pr` store then `path` store: the keys differ
          have hpp : pr ≠ path := by
            intro he
            apply hcur4
            rw [← he, ← hr22, ← hr32]
            exact hz4
          have hf3 : (lookupAssoc r3.1.langCache path).isSome = false := by
            rw [hc3, hc2, lookupAssoc_cons,
              if_neg (fun h => hpp h.symm), hc1]
            exact hfreshKey
          constructor
          · intro p hps
            rw [hc4] at hps
            refine keys_cons_sub (fun p => p = [] ∨ p ∈ s0.visited)
              hSpath ?_ p hps
            intro p hps
            rw [hc3, hc2] at hps
            refine keys_cons_sub (fun p => p = [] ∨ p ∈ s0.visited)
              hSpr ?_ p hps
            intro p hps
            rw [hc1] at hps
            exact hkeys p hps
          · intro _ hW
            have hW1 : WInv s1 := WInv_congr hc1 hw1 hW
            have hWa : WInv (s1.cacheStore pr (detectAt ctx tree pr)) :=
              WInv_store pr (detectAt ctx tree pr) hf1 hW1
            have hWb : WInv r3.1 := WInv_congr
              (by rw [hc3, hc2, cacheStore_langCache])
              (by rw [hw3, hw2, cacheStore_cacheWrites]) hWa
            exact WInv_congr (by rw [hc4, cacheStore_langCache])
              (by rw [hw4, cacheStore_cacheWrites])
              (WInv_store path (detectAt ctx tree path) hf3 hWb)
      · -- `pr` store then detect3's `path` store: the keys differ
        have hpp : pr ≠ path := by
          intro he
          apply hcur3
          rw [← he, ← hr22]
          exact hz3
        rcases spec4 with ⟨hc4, hw4, _⟩ | ⟨hz4, _, _, _, _, _⟩
        · have hf2 : (lookupAssoc r2.1.langCache path).isSome = false := by
            rw [hc2, lookupAssoc_cons, if_neg (fun h => hpp h.symm), hc1]
            exact hfreshKey
          constructor
          · intro p hps
            rw [hc4, hc3] at hps
            refine keys_cons_sub (fun p => p = [] ∨ p ∈ s0.visited)
              hSpath ?_ p hps
            intro p hps
            rw [hc2] at hps
            refine keys_cons_sub (fun p => p = [] ∨ p ∈ s0.visited)
              hSpr ?_ p hps
            intro p hps
            rw [hc1] at hps
            exact hkeys p hps
          · intro _ hW
            have hW1 : WInv s1 := WInv_congr hc1 hw1 hW
            have hWa : WInv (s1.cacheStore pr (detectAt ctx tree pr)) :=
              WInv_store pr (detectAt ctx tree pr) hf1 hW1
            have hWb : WInv r2.1 := WInv_congr
              (by rw [hc2, cacheStore_langCache])
              (by rw [hw2, cacheStore_cacheWrites]) hWa
            exact WInv_congr (by rw [hc4, hc3, cacheStore_langCache])
              (by rw [hw4, hw3, cacheStore_cacheWrites])
              (WInv_store path (detectAt ctx tree path) hf2 hWb)
        · exact absurd (hr32 ▸ hz4) hcur3
  · -- detect1 stored `(pr, [])` for an excluded depth-0 directory
    have hprex : pr ∈ s1.excludedDirs := by
      rw [he1]
      exact setInsert_self _ _
    rcases spec2 with ⟨hc2, hw2, _⟩ | ⟨hmiss2, _, _, _, _⟩
    · rcases spec3 with ⟨hc3, hw3, hr32⟩ | ⟨_, hnex3, _, _, _, _⟩
      · rcases spec4 with ⟨hc4, hw4, _⟩ | ⟨_, hnex4, _, _, _, _⟩
        · constructor
          · intro p hps
            rw [hc4, hc3, hc2, hc1] at hps
            exact keys_cons_sub (fun p => p = [] ∨ p ∈ s0.visited)
              hSpr hkeys p hps
          · intro hgit hW
            have hprp : pr = path := hprNoGit hgit hex1 hd1
            have hf0 : (lookupAssoc s0.langCache pr).isSome = false := by
              rw [hprp]
              exact hfreshKey
            exact WInv_congr
              (by rw [hc4, hc3, hc2, hc1, cacheStore_langCache])
              (by rw [hw4, hw3, hw2, hw1, cacheStore_cacheWrites])
              (WInv_store pr [] hf0 hW)
        · -- detect4 cannot store: `pr` is excluded
          refine absurd ?_ hnex4
          rw [c3ex, c2ex]
          exact hprex
      · -- detect3 cannot store: `pr` is excluded
        refine absurd ?_ hnex3
        rw [c2ex]
        exact hprex
    · -- detect2 cannot miss: detect1 just cached `pr`
      rw [hc1, lookupAssoc_cons, if_pos rfl] at hmiss2
      exact absurd hmiss2 (Option.some_ne_none _)

theorem lookupAssoc_isSome_cons {β : Type} (k p : Path) (v : β)
    (c : List (Path × β)) (h : (lookupAssoc c p).isSome = true) :
    (lookupAssoc ((k, v) :: c) p).isSome = true := by
  rw [lookupAssoc_cons]
  split
  · rfl
  · exact h

/-- Wherever the callback's `projectRoot` points, it is the scan root, the
current directory, or an already-visited ancestor. -/
theorem projectRootOf_mem (path : Path) (m : Bool) (s : St) (hp : path ≠ [])
    (hanc : ∀ q, q ≠ [] → q <+: path → q ≠ path → q ∈ s.visited) :
    projectRootOf path (path.length - 1) m = []
    ∨ projectRootOf path (path.length - 1) m = path
    ∨ projectRootOf path (path.length - 1) m ∈ s.visited := by
  unfold projectRootOf
  by_cases hd : path.length - 1 = 0
  · rw [if_pos hd]
    by_cases hm : m = true
    · rw [if_pos hm]
      exact Or.inl rfl
    · rw [if_neg hm]
      exact Or.inr (Or.inl rfl)
  · rw [if_neg hd]
    rcases path with _ | ⟨a, t⟩
    · exact absurd rfl hp
    · have ht : t ≠ [] := by
        intro h
        subst h
        simp at hd
      refine Or.inr (Or.inr ?_)
      have h1 : ([a] : Path) ≠ a :: t := by
        intro h
        injection h with h1a h1b
        exact ht h1b.symm
      have h2 : ([a] : Path) <+: a :: t := ⟨t, rfl⟩
      exact hanc [a] (by simp) h2 h1

theorem matchPhase_snd (ctx : Ctx) (tree : FSList) (s : St) (path : Path)
    (dirName : Name) (pats : List Name) (detected : Lang)
    (prOpt : Option Path) :
    (matchPhase ctx tree s path dirName pats detected prOpt).2
      = (pats.find? (matchPattern dirName)).isSome := by
  unfold matchPhase
  dsimp only
  split
  · rename_i pat heq
    rw [heq]
    rfl
  · rename_i heq
    rw [heq]
    rfl

theorem matchPhase_findings_of_not_skip (ctx : Ctx) (tree : FSList) (s : St)
    (path : Path) (dirName : Name) (pats : List Name) (detected : Lang)
    (prOpt : Option Path)
    (h : (matchPhase ctx tree s path dirName pats detected prOpt).2 = false) :
    (matchPhase ctx tree s path dirName pats detected prOpt).1.findings
      = s.findings := by
  rcases hf : pats.find? (matchPattern dirName) with _ | pat
  · unfold matchPhase
    rw [hf]
  · rw [matchPhase_snd, hf] at h
    simp at h

/-- Any finding the callback appends is a status finding for the current
directory or its project root, or the cache-match finding for the current
directory coming with the subtree skip. -/
theorem processDir_findings (ctx : Ctx) (tree : FSList) (s : St)
    (path : Path) :
    ∀ f ∈ (processDir ctx tree s path).1.findings,
      f ∈ s.findings
      ∨ (f.pattern = [] ∧ f.projectRoot = f.path
          ∧ (f.path = path
            ∨ f.path = projectRootOf path (path.length - 1)
                (ctx.patterns.any (matchPattern (path.getLastD [])))))
      ∨ (f.path = path ∧ (processDir ctx tree s path).2 = true) := by
  intro f hf
  unfold processDir at hf ⊢
  dsimp only at hf ⊢
  split at hf
  · exact Or.inl hf
  · rename_i hd
    split at hf
    · rename_i hdl
      split at hf
      · rename_i hrm
        rcases matchPhase_findings_mem _ _ _ _ _ _ _ _ f hf with hold |
          ⟨pat, hpat, hm, hfp, hpath, hpr⟩
        · rcases detect5_findings_mem _ _ _ _ f hold with h5 |
            ⟨hp0, hpr0, hpp0⟩
          · rcases detect4_findings_mem _ _ _ _ _ _ _ _ f h5 with h4 |
              ⟨hp0, hpr0, hpp0, _⟩
            · rw [detect3_findings, detect2_findings, detect1_findings] at h4
              exact Or.inl h4
            · exact Or.inr (Or.inl ⟨hp0, hpr0, Or.inl hpp0⟩)
          · exact Or.inr (Or.inl ⟨hp0, hpr0, Or.inr hpp0⟩)
        · refine Or.inr (Or.inr ⟨hpath, ?_⟩)
          rw [if_neg hd, if_pos hdl, if_pos hrm]
      · rename_i hrm
        rcases fallbackPhase_findings_mem _ _ _ _ _ _ _ f hf with hold |
          ⟨hp0, hpr0, hpp0⟩
        · have hrm2 := Bool.eq_false_iff.mpr hrm
          rw [matchPhase_findings_of_not_skip _ _ _ _ _ _ _ _ hrm2] at hold
          rcases detect5_findings_mem _ _ _ _ f hold with h5 |
            ⟨hp0, hpr0, hpp0⟩
          · rcases detect4_findings_mem _ _ _ _ _ _ _ _ f h5 with h4 |
              ⟨hp0, hpr0, hpp0, _⟩
            · rw [detect3_findings, detect2_findings, detect1_findings] at h4
              exact Or.inl h4
            · exact Or.inr (Or.inl ⟨hp0, hpr0, Or.inl hpp0⟩)
          · exact Or.inr (Or.inl ⟨hp0, hpr0, Or.inr hpp0⟩)
        · exact Or.inr (Or.inl ⟨hp0, hpr0, Or.inr hpp0⟩)
    · rename_i hdl
      rcases matchPhase_findings_mem _ _ _ _ _ _ _ _ f hf with hold |
        ⟨pat, hpat, hm, hfp, hpath, hpr⟩
      · exact Or.inl hold
      · refine Or.inr (Or.inr ⟨hpath, ?_⟩)
        rw [if_neg hd, if_neg hdl, matchPhase_snd]
        rcases hfind : ctx.patterns.find?
            (matchPattern (path.getLastD [])) with _ | q
        · rw [List.find?_eq_none] at hfind
          exact absurd hm (by simpa using hfind pat hpat)
        · rfl

/-- The callback records in `depth0Scanned` nothing but the current
`projectRoot`. -/
theorem processDir_scanned_mem (ctx : Ctx) (tree : FSList) (s : St)
    (path : Path) :
    ∀ r ∈ (processDir ctx tree s path).1.depth0Scanned,
      r ∈ s.depth0Scanned
      ∨ r = projectRootOf path (path.length - 1)
          (ctx.patterns.any (matchPattern (path.getLastD []))) := by
  intro r hr
  unfold processDir at hr
  dsimp only at hr
  split at hr
  · exact Or.inl hr
  · split at hr
    · split at hr
      · rw [(matchPhase_const _ _ _ _ _ _ _ _).2.2.1,
          (detect5_const _ _ _ _).2.1,
          (detect4_const _ _ _ _ _ _ _ _).1,
          (detect3_const _ _ _ _ _ _ _ _).2.1,
          (detect2_const _ _ _ _ _).1] at hr
        exact detect1_scanned_mem { s with visited := s.visited ++ [path] }
          _ _ _ r hr
      · rw [(fallbackPhase_const _ _ _ _ _ _ _).2.1,
          (matchPhase_const _ _ _ _ _ _ _ _).2.2.1,
          (detect5_const _ _ _ _).2.1,
          (detect4_const _ _ _ _ _ _ _ _).1,
          (detect3_const _ _ _ _ _ _ _ _).2.1,
          (detect2_const _ _ _ _ _).1] at hr
        exact detect1_scanned_mem { s with visited := s.visited ++ [path] }
          _ _ _ r hr
    · rw [(matchPhase_const _ _ _ _ _ _ _ _).2.2.1] at hr
      exact Or.inl hr

/-- Cache keys stay within root-or-visited, and (absent a `.git` cache
pattern) the write-once invariant survives one callback invocation. -/
theorem processDir_cache (ctx : Ctx) (tree : FSList) (s : St) (path : Path)
    (hp : path ≠ [])
    (hanc : ∀ q, q ≠ [] → q <+: path → q ≠ path → q ∈ s.visited)
    (hfreshv : path ∉ s.visited) (hK : Keys s) :
    (∀ p, (lookupAssoc (processDir ctx tree s path).1.langCache p).isSome
        = true → p = [] ∨ p ∈ s.visited ++ [path])
    ∧ (NoGitPattern ctx → WInv s → WInv (processDir ctx tree s path).1) := by
  unfold processDir
  dsimp only
  by_cases hd : path.length - 1 > ctx.maxDepth
  · rw [if_pos hd]
    constructor
    · intro p hps
      rcases hK p hps with h | h
      · exact Or.inl h
      · exact Or.inr (List.mem_append_left _ h)
    · intro _ hW
      exact WInv_congr rfl rfl hW
  · rw [if_neg hd]
    by_cases hdl : ctx.detectLang = true
    · rw [if_pos hdl]
      set s0 : St := { s with visited := s.visited ++ [path] } with hs0
      set pr : Path := projectRootOf path (path.length - 1)
        (ctx.patterns.any (matchPattern (path.getLastD []))) with hpr
      have hpathv : path ∈ s0.visited :=
        List.mem_append_right _ (List.mem_singleton_self path)
      have hprv : pr = [] ∨ pr ∈ s0.visited := by
        have hprv0 := projectRootOf_mem path
          (ctx.patterns.any (matchPattern (path.getLastD []))) s hp hanc
        rw [← hpr] at hprv0
        rcases hprv0 with h | h | h
        · exact Or.inl h
        · rw [h]
          exact Or.inr hpathv
        · exact Or.inr (List.mem_append_left _ h)
      have hfresh : (lookupAssoc s0.langCache path).isSome = false := by
        cases hres : (lookupAssoc s.langCache path).isSome
        · rfl
        · exfalso
          rcases hK path hres with h | h
          · exact hp h
          · exact hfreshv h
      have hkeys0 : ∀ p, (lookupAssoc s0.langCache p).isSome = true →
          p = [] ∨ p ∈ s0.visited := by
        intro p hps
        rcases hK p hps with h | h
        · exact Or.inl h
        · exact Or.inr (List.mem_append_left _ h)
      have hNG : NoGitPattern ctx →
          decide (path.getLastD [] ∈ excludedFromLanguageDetection) = true →
          path.length - 1 = 0 → pr = path := by
        intro hgit hex hd0
        have hdn : path.getLastD [] = str ".git" := by
          have h := of_decide_eq_true hex
          simpa [excludedFromLanguageDetection] using h
        have hany : ctx.patterns.any (matchPattern (path.getLastD []))
            = false := by
          rw [hdn]
          rw [List.any_eq_false]
          intro pat hpat
          simp [hgit pat hpat]
        rw [hpr]
        unfold projectRootOf
        rw [hany, if_pos hd0, if_neg Bool.false_ne_true]
      have hmain := detectChain_master ctx tree s0 _ _ _ _ path pr
        (path.length - 1) ctx.maxDepth
        (decide (path.getLastD [] ∈ excludedFromLanguageDetection))
        rfl rfl rfl rfl hprv hpathv hfresh hkeys0 hNG
      constructor
      · intro p hps
        split at hps
        · dsimp only at hps
          rw [(matchPhase_const _ _ _ _ _ _ _ _).1,
            (detect5_const _ _ _ _).1] at hps
          exact hmain.1 p hps
        · dsimp only at hps
          rw [(fallbackPhase_const _ _ _ _ _ _ _).1,
            (matchPhase_const _ _ _ _ _ _ _ _).1,
            (detect5_const _ _ _ _).1] at hps
          exact hmain.1 p hps
      · intro hgit hW
        have hW0 : WInv s0 := WInv_congr rfl rfl hW
        have hW4 := hmain.2 hgit hW0
        split
        · refine WInv_congr ?cl1 ?cw1 hW4
          case cl1 =>
            dsimp only
            rw [(matchPhase_const _ _ _ _ _ _ _ _).1,
              (detect5_const _ _ _ _).1]
          case cw1 =>
            dsimp only
            rw [(matchPhase_const _ _ _ _ _ _ _ _).2.2.2.2.2.1,
              (detect5_const _ _ _ _).2.2.2.2.2.1]
        · refine WInv_congr ?cl2 ?cw2 hW4
          case cl2 =>
            dsimp only
            rw [(fallbackPhase_const _ _ _ _ _ _ _).1,
              (matchPhase_const _ _ _ _ _ _ _ _).1,
              (detect5_const _ _ _ _).1]
          case cw2 =>
            dsimp only
            rw [(fallbackPhase_const _ _ _ _ _ _ _).2.2.2.2.2.1,
              (matchPhase_const _ _ _ _ _ _ _ _).2.2.2.2.2.1,
              (detect5_const _ _ _ _).2.2.2.2.2.1]
    · rw [if_neg hdl]
      constructor
      · intro p hps
        rw [(matchPhase_const _ _ _ _ _ _ _ _).1] at hps
        rcases hK p hps with h | h
        · exact Or.inl h
        · exact Or.inr (List.mem_append_left _ h)
      · intro _ hW
        exact WInv_congr ((matchPhase_const _ _ _ _ _ _ _ _).1)
          ((matchPhase_const _ _ _ _ _ _ _ _).2.2.2.2.2.1) hW

/-- The per-invocation state facts needed by the walk induction, bundled. -/
theorem processDir_state (ctx : Ctx) (tree : FSList) (s : St) (path : Path)
    (hp : path ≠ [])
    (hanc : ∀ q, q ≠ [] → q <+: path → q ≠ path → q ∈ s.visited)
    (hfreshv : path ∉ s.visited)
    (hK : Keys s) (hFP : FPaths s) (hDS : DSv s) :
    Keys (processDir ctx tree s path).1
    ∧ FPaths (processDir ctx tree s path).1
    ∧ DSv (processDir ctx tree s path).1
    ∧ (NoGitPattern ctx → WInv s → WInv (processDir ctx tree s path).1) := by
  have hvis := processDir_visited ctx tree s path
  have hc := processDir_cache ctx tree s path hp hanc hfreshv hK
  refine ⟨?_, ?_, ?_, hc.2⟩
  · intro p hps
    rw [hvis]
    exact hc.1 p hps
  · intro f hf
    rw [hvis]
    rcases processDir_findings ctx tree s path f hf with hold | ⟨-, -, hpp⟩ |
      ⟨hpath, -⟩
    · rcases hFP f hold with h | h
      · exact Or.inl h
      · exact Or.inr (List.mem_append_left _ h)
    · rcases hpp with h | h
      · rw [h]
        exact Or.inr (List.mem_append_right _ (List.mem_singleton_self path))
      · rcases projectRootOf_mem path
          (ctx.patterns.any (matchPattern (path.getLastD []))) s hp hanc
          with h0 | h0 | h0
        · exact Or.inl (h.trans h0)
        · rw [h, h0]
          exact Or.inr (List.mem_append_right _ (List.mem_singleton_self path))
        · rw [h]
          exact Or.inr (List.mem_append_left _ h0)
    · rw [hpath]
      exact Or.inr (List.mem_append_right _ (List.mem_singleton_self path))
  · intro r hr
    rw [hvis]
    rcases processDir_scanned_mem ctx tree s path r hr with hold | hprr
    · rcases hDS r hold with h | h
      · exact Or.inl h
      · exact Or.inr (List.mem_append_left _ h)
    · rcases projectRootOf_mem path
        (ctx.patterns.any (matchPattern (path.getLastD []))) s hp hanc
        with h0 | h0 | h0
      · exact Or.inl (hprr.trans h0)
      · rw [hprr, h0]
        exact Or.inr (List.mem_append_right _ (List.mem_singleton_self path))
      · rw [hprr]
        exact Or.inr (List.mem_append_left _ h0)

/-! ## Classifier-probe accounting -/

theorem detect2_pspec (ctx : Ctx) (tree : FSList) (s : St) (pr : Path)
    (depth : Nat) :
    ((detect2 ctx tree s pr depth).1.probes = s.probes
      ∧ (detect2 ctx tree s pr depth).1.langCache = s.langCache)
    ∨ ((detect2 ctx tree s pr depth).1.probes = s.probes ++ [pr]
      ∧ lookupAssoc s.langCache pr = none
      ∧ (detect2 ctx tree s pr depth).1.langCache
          = (pr, detectAt ctx tree pr) :: s.langCache) := by
  unfold detect2 St.cacheStore
  dsimp only
  split
  · refine Or.inl ?_
    split <;> exact ⟨rfl, rfl⟩
  · rename_i hv
    split
    · refine Or.inr ⟨?_, hv, ?_⟩ <;> (split <;> rfl)
    · exact Or.inl ⟨rfl, rfl⟩

theorem detect3_pspec (ctx : Ctx) (tree : FSList) (s : St) (path pr : Path)
    (depth : Nat) (detected : Lang) (maxDepth : Nat) :
    ((detect3 ctx tree s path pr depth detected maxDepth).1.probes = s.probes
      ∧ (detect3 ctx tree s path pr depth detected maxDepth).1.langCache
          = s.langCache)
    ∨ ((detect3 ctx tree s path pr depth detected maxDepth).1.probes
          = s.probes ++ [path]
      ∧ depth < maxDepth
      ∧ ((detect3 ctx tree s path pr depth detected maxDepth).1.langCache
            = s.langCache
        ∨ (detect3 ctx tree s path pr depth detected maxDepth).1.langCache
            = (path, detectAt ctx tree path) :: s.langCache)) := by
  unfold detect3 St.cacheStore
  dsimp only
  split
  · rename_i hcond
    refine Or.inr ⟨?_, hcond.2.1, ?_⟩
    · split <;> rfl
    · split
      · exact Or.inr rfl
      · exact Or.inl rfl
  · exact Or.inl ⟨rfl, rfl⟩

theorem detect4_pspec (ctx : Ctx) (tree : FSList) (s : St) (path pr : Path)
    (depth maxDepth : Nat) (detected : Lang) :
    ((detect4 ctx tree s path pr depth maxDepth detected).1.probes = s.probes
      ∧ (detect4 ctx tree s path pr depth maxDepth detected).1.langCache
          = s.langCache)
    ∨ ((detect4 ctx tree s path pr depth maxDepth detected).1.probes
          = s.probes ++ [path]
      ∧ depth = maxDepth
      ∧ ((detect4 ctx tree s path pr depth maxDepth detected).1.langCache
            = s.langCache
        ∨ (detect4 ctx tree s path pr depth maxDepth detected).1.langCache
            = (path, detectAt ctx tree path) :: s.langCache)) := by
  unfold detect4 St.cacheStore
  dsimp only
  split
  · rename_i hcond
    refine Or.inr ⟨?_, hcond.1, ?_⟩
    · split
      · split <;> rfl
      · rfl
    · split
      · split
        · exact Or.inl rfl
        · exact Or.inl rfl
      · exact Or.inr rfl
  · exact Or.inl ⟨rfl, rfl⟩

/-- With language detection on and within the depth bound, the callback's
probes and cache are those left by the `detect` chain. -/
theorem processDir_detect_chain (ctx : Ctx) (tree : FSList) (s : St)
    (path : Path) (hdl : ctx.detectLang = true)
    (hd : ¬(path.length - 1 > ctx.maxDepth)) :
    ∃ (s0 : St) (pr : Path) (ex : Bool) (s1 : St) (r2 r3 r4 : St × Lang),
      s0.langCache = s.langCache ∧ s0.probes = s.probes
      ∧ s1 = detect1 s0 pr (path.length - 1) ex
      ∧ r2 = detect2 ctx tree s1 pr (path.length - 1)
      ∧ r3 = detect3 ctx tree r2.1 path pr (path.length - 1) r2.2 ctx.maxDepth
      ∧ r4 = detect4 ctx tree r3.1 path pr (path.length - 1) ctx.maxDepth r3.2
      ∧ (processDir ctx tree s path).1.probes = r4.1.probes
      ∧ (processDir ctx tree s path).1.langCache = r4.1.langCache := by
  refine ⟨{ s with visited := s.visited ++ [path] },
    projectRootOf path (path.length - 1)
      (ctx.patterns.any (matchPattern (path.getLastD []))),
    decide (path.getLastD [] ∈ excludedFromLanguageDetection),
    _, _, _, _, rfl, rfl, rfl, rfl, rfl, rfl, ?_, ?_⟩
  · unfold processDir
    dsimp only
    rw [if_neg hd, if_pos hdl]
    split
    · dsimp only
      rw [(matchPhase_const _ _ _ _ _ _ _ _).2.2.2.2.1,
        (detect5_const _ _ _ _).2.2.2.2.1]
    · dsimp only
      rw [(fallbackPhase_const _ _ _ _ _ _ _).2.2.2.2.1,
        (matchPhase_const _ _ _ _ _ _ _ _).2.2.2.2.1,
        (detect5_const _ _ _ _).2.2.2.2.1]
  · unfold processDir
    dsimp only
    rw [if_neg hd, if_pos hdl]
    split
    · dsimp only
      rw [(matchPhase_const _ _ _ _ _ _ _ _).1, (detect5_const _ _ _ _).1]
    · dsimp only
      rw [(fallbackPhase_const _ _ _ _ _ _ _).1,
        (matchPhase_const _ _ _ _ _ _ _ _).1, (detect5_const _ _ _ _).1]

theorem countPath_append (l1 l2 : List Path) (p : Path) :
    countPath (l1 ++ l2) p = countPath l1 p + countPath l2 p := by
  unfold countPath
  rw [List.countP_append]

theorem countPath_singleton (q p : Path) :
    countPath [q] p = if q = p then 1 else 0 := by
  unfold countPath
  rw [List.countP_cons]
  simp [List.countP_nil]

theorem countPath_nodup_le_one (l : List Path) (p : Path) :
    l.Nodup → countPath l p ≤ 1 := by
  induction l with
  | nil =>
    intro _
    simp [countPath]
  | cons a t ih =>
    intro h
    unfold countPath
    rw [List.countP_cons]
    by_cases hap : decide (a = p) = true
    · rw [if_pos hap]
      have h0 : List.countP (fun q => decide (q = p)) t = 0 := by
        rw [List.countP_eq_zero]
        intro x hx
        simp only [decide_eq_true_eq]
        intro hxp
        have hap2 := of_decide_eq_true hap
        rw [hxp, ← hap2] at hx
        exact (List.nodup_cons.mp h).1 hx
      rw [h0]
    · rw [if_neg hap]
      have ht := ih (List.nodup_cons.mp h).2
      unfold countPath at ht
      omega

/-- One callback invocation probes the classifier at most once at a key it
freshly caches plus at most once at the current directory itself, and
cached keys survive the invocation. -/
theorem processDir_probes (ctx : Ctx) (tree : FSList) (s : St) (path : Path)
    (p : Path) :
    ((lookupAssoc s.langCache p).isSome = true →
      (lookupAssoc (processDir ctx tree s path).1.langCache p).isSome = true)
    ∧ countPath (processDir ctx tree s path).1.probes p
      ≤ countPath s.probes p
        + (if (lookupAssoc (processDir ctx tree s path).1.langCache p).isSome
              = true ∧ (lookupAssoc s.langCache p).isSome = false
           then 1 else 0)
        + (if path = p then 1 else 0) := by
  by_cases hd : path.length - 1 > ctx.maxDepth
  · have h1 : (processDir ctx tree s path).1.probes = s.probes := by
      unfold processDir
      dsimp only
      rw [if_pos hd]
    have h2 : (processDir ctx tree s path).1.langCache = s.langCache := by
      unfold processDir
      dsimp only
      rw [if_pos hd]
    rw [h1, h2]
    exact ⟨fun h => h, (Nat.le_add_right _ _).trans (Nat.le_add_right _ _)⟩
  · by_cases hdl : ctx.detectLang = true
    case neg =>
      have h1 : (processDir ctx tree s path).1.probes = s.probes := by
        unfold processDir
        dsimp only
        rw [if_neg hd, if_neg hdl,
          (matchPhase_const _ _ _ _ _ _ _ _).2.2.2.2.1]
      have h2 : (processDir ctx tree s path).1.langCache = s.langCache := by
        unfold processDir
        dsimp only
        rw [if_neg hd, if_neg hdl, (matchPhase_const _ _ _ _ _ _ _ _).1]
      rw [h1, h2]
      exact ⟨fun h => h, (Nat.le_add_right _ _).trans (Nat.le_add_right _ _)⟩
    case pos =>
      obtain ⟨s0, pr, ex, s1, r2, r3, r4, hc0, hp0, hs1, hh2, hh3, hh4,
        hfp, hfc⟩ := processDir_detect_chain ctx tree s path hdl hd
      rw [hfp, hfc]
      have spec1 := detect1_spec s0 pr (path.length - 1) ex
      rw [← hs1] at spec1
      have p1 : s1.probes = s0.probes := by
        have h := (detect1_const s0 pr (path.length - 1) ex).2.2.1
        rw [← hs1] at h
        exact h
      have pspec2 := detect2_pspec ctx tree s1 pr (path.length - 1)
      rw [← hh2] at pspec2
      have pspec3 := detect3_pspec ctx tree r2.1 path pr (path.length - 1)
        r2.2 ctx.maxDepth
      rw [← hh3] at pspec3
      have pspec4 := detect4_pspec ctx tree r3.1 path pr (path.length - 1)
        ctx.maxDepth r3.2
      rw [← hh4] at pspec4
      have hps1 : s1.probes = s.probes := by rw [p1, hp0]
      rcases spec1 with ⟨hc1, -, -⟩ | ⟨-, -, hc1, -, -⟩
      · -- detect1 left the cache alone
        have hcs1 : s1.langCache = s.langCache := by rw [hc1, hc0]
        rcases pspec2 with ⟨hq2, hc2⟩ | ⟨hq2, hmiss2, hc2⟩
        · rcases pspec3 with ⟨hq3, hc3⟩ | ⟨hq3, hlt3, hc3or⟩
          · rcases pspec4 with ⟨hq4, hc4⟩ | ⟨hq4, heq4, hc4or⟩
            · have hcF : r4.1.langCache = s.langCache := by
                rw [hc4, hc3, hc2, hcs1]
              have hpF : r4.1.probes = s.probes := by
                rw [hq4, hq3, hq2, hps1]
              rw [hcF, hpF]
              exact ⟨fun h => h,
                (Nat.le_add_right _ _).trans (Nat.le_add_right _ _)⟩
            · have hpF : r4.1.probes = s.probes ++ [path] := by
                rw [hq4, hq3, hq2, hps1]
              constructor
              · intro h
                rcases hc4or with h4 | h4
                · rw [h4, hc3, hc2, hcs1]
                  exact h
                · rw [h4, hc3, hc2, hcs1]
                  exact lookupAssoc_isSome_cons _ _ _ _ h
              · rw [hpF, countPath_append, countPath_singleton]
                omega
          · rcases pspec4 with ⟨hq4, hc4⟩ | ⟨hq4, heq4, hc4or⟩
            · have hpF : r4.1.probes = s.probes ++ [path] := by
                rw [hq4, hq3, hq2, hps1]
              constructor
              · intro h
                rcases hc3or with h3 | h3
                · rw [hc4, h3, hc2, hcs1]
                  exact h
                · rw [hc4, h3, hc2, hcs1]
                  exact lookupAssoc_isSome_cons _ _ _ _ h
              · rw [hpF, countPath_append, countPath_singleton]
                omega
            · exact absurd heq4 (Nat.ne_of_lt hlt3)
        · -- detect2 probed and cached the fresh root `pr`
          have hmiss2' : lookupAssoc s.langCache pr = none := by
            rw [← hcs1]
            exact hmiss2
          rcases pspec3 with ⟨hq3, hc3⟩ | ⟨hq3, hlt3, hc3or⟩
          · rcases pspec4 with ⟨hq4, hc4⟩ | ⟨hq4, heq4, hc4or⟩
            · have hpF : r4.1.probes = s.probes ++ [pr] := by
                rw [hq4, hq3, hq2, hps1]
              have hcF : r4.1.langCache
                  = (pr, detectAt ctx tree pr) :: s.langCache := by
                rw [hc4, hc3, hc2, hcs1]
              constructor
              · intro h
                rw [hcF]
                exact lookupAssoc_isSome_cons _ _ _ _ h
              · rw [hpF, countPath_append, countPath_singleton]
                by_cases hppr : pr = p
                · have hI : (lookupAssoc r4.1.langCache p).isSome = true
                      ∧ (lookupAssoc s.langCache p).isSome = false := by
                    constructor
                    · rw [hcF, lookupAssoc_cons, if_pos hppr.symm]
                      rfl
                    · rw [← hppr, hmiss2']
                      rfl
                  rw [if_pos hppr, if_pos hI]
                  omega
                · rw [if_neg hppr]
                  omega
            · have hpF : r4.1.probes = (s.probes ++ [pr]) ++ [path] := by
                rw [hq4, hq3, hq2, hps1]
              constructor
              · intro h
                rcases hc4or with h4 | h4
                · rw [h4, hc3, hc2, hcs1]
                  exact lookupAssoc_isSome_cons _ _ _ _ h
                · rw [h4, hc3, hc2, hcs1]
                  exact lookupAssoc_isSome_cons _ _ _ _
                    (lookupAssoc_isSome_cons _ _ _ _ h)
              · rw [hpF, countPath_append, countPath_append,
                  countPath_singleton, countPath_singleton]
                by_cases hppr : pr = p
                · have hI : (lookupAssoc r4.1.langCache p).isSome = true
                      ∧ (lookupAssoc s.langCache p).isSome = false := by
                    constructor
                    · rcases hc4or with h4 | h4
                      · rw [h4, hc3, hc2, hcs1, lookupAssoc_cons,
                          if_pos hppr.symm]
                        rfl
                      · rw [h4, hc3, hc2, hcs1]
                        exact lookupAssoc_isSome_cons _ _ _ _
                          (by rw [lookupAssoc_cons, if_pos hppr.symm]; rfl)
                    · rw [← hppr, hmiss2']
                      rfl
                  rw [if_pos hppr, if_pos hI]
                · rw [if_neg hppr]
                  omega
          · rcases pspec4 with ⟨hq4, hc4⟩ | ⟨hq4, heq4, hc4or⟩
            · have hpF : r4.1.probes = (s.probes ++ [pr]) ++ [path] := by
                rw [hq4, hq3, hq2, hps1]
              constructor
              · intro h
                rcases hc3or with h3 | h3
                · rw [hc4, h3, hc2, hcs1]
                  exact lookupAssoc_isSome_cons _ _ _ _ h
                · rw [hc4, h3, hc2, hcs1]
                  exact lookupAssoc_isSome_cons _ _ _ _
                    (lookupAssoc_isSome_cons _ _ _ _ h)
              · rw [hpF, countPath_append, countPath_append,
                  countPath_singleton, countPath_singleton]
                by_cases hppr : pr = p
                · have hI : (lookupAssoc r4.1.langCache p).isSome = true
                      ∧ (lookupAssoc s.langCache p).isSome = false := by
                    constructor
                    · rcases hc3or with h3 | h3
                      · rw [hc4, h3, hc2, hcs1, lookupAssoc_cons,
                          if_pos hppr.symm]
                        rfl
                      · rw [hc4, h3, hc2, hcs1]
                        exact lookupAssoc_isSome_cons _ _ _ _
                          (by rw [lookupAssoc_cons, if_pos hppr.symm]; rfl)
                    · rw [← hppr, hmiss2']
                      rfl
                  rw [if_pos hppr, if_pos hI]
                · rw [if_neg hppr]
                  omega
            · exact absurd heq4 (Nat.ne_of_lt hlt3)
      · -- detect1 cached `(pr, [])`; detect2 therefore hits
        have hcs1 : s1.langCache = (pr, []) :: s.langCache := by
          rw [hc1, hc0]
        rcases pspec2 with ⟨hq2, hc2⟩ | ⟨hq2, hmiss2, hc2⟩
        · rcases pspec3 with ⟨hq3, hc3⟩ | ⟨hq3, hlt3, hc3or⟩
          · rcases pspec4 with ⟨hq4, hc4⟩ | ⟨hq4, heq4, hc4or⟩
            · have hpF : r4.1.probes = s.probes := by
                rw [hq4, hq3, hq2, hps1]
              have hcF : r4.1.langCache = (pr, []) :: s.langCache := by
                rw [hc4, hc3, hc2, hcs1]
              constructor
              · intro h
                rw [hcF]
                exact lookupAssoc_isSome_cons _ _ _ _ h
              · rw [hpF]
                exact (Nat.le_add_right _ _).trans (Nat.le_add_right _ _)
            · have hpF : r4.1.probes = s.probes ++ [path] := by
                rw [hq4, hq3, hq2, hps1]
              constructor
              · intro h
                rcases hc4or with h4 | h4
                · rw [h4, hc3, hc2, hcs1]
                  exact lookupAssoc_isSome_cons _ _ _ _ h
                · rw [h4, hc3, hc2, hcs1]
                  exact lookupAssoc_isSome_cons _ _ _ _
                    (lookupAssoc_isSome_cons _ _ _ _ h)
              · rw [hpF, countPath_append, countPath_singleton]
                omega
          · rcases pspec4 with ⟨hq4, hc4⟩ | ⟨hq4, heq4, hc4or⟩
            · have hpF : r4.1.probes = s.probes ++ [path] := by
                rw [hq4, hq3, hq2, hps1]
              constructor
              · intro h
                rcases hc3or with h3 | h3
                · rw [hc4, h3, hc2, hcs1]
                  exact lookupAssoc_isSome_cons _ _ _ _ h
                · rw [hc4, h3, hc2, hcs1]
                  exact lookupAssoc_isSome_cons _ _ _ _
                    (lookupAssoc_isSome_cons _ _ _ _ h)
              · rw [hpF, countPath_append, countPath_singleton]
                omega
            · exact absurd heq4 (Nat.ne_of_lt hlt3)
        · rw [hcs1, lookupAssoc_cons, if_pos rfl] at hmiss2
          exact absurd hmiss2 (Option.some_ne_none _)

/-- `ProbeInv` is preserved by every callback invocation. -/
theorem processDir_probeInv (ctx : Ctx) (tree : FSList) (s : St)
    (path : Path) (h : ProbeInv s) :
    ProbeInv (processDir ctx tree s path).1 := by
  intro p
  have hp := processDir_probes ctx tree s path p
  have hb := h p
  unfold probeBudget at hb ⊢
  rw [processDir_visited, countPath_append, countPath_singleton]
  have hmono := hp.1
  have hcount := hp.2
  by_cases hs : (lookupAssoc s.langCache p).isSome = true
  · have hs' := hmono hs
    rw [if_pos hs']
    rw [if_pos hs] at hb
    have hind : (if (lookupAssoc (processDir ctx tree s path).1.langCache
          p).isSome = true ∧ (lookupAssoc s.langCache p).isSome = false
        then 1 else 0) = 0 := by
      rw [if_neg]
      intro hcon
      rw [hs] at hcon
      exact absurd hcon.2 (by simp)
    rw [hind] at hcount
    omega
  · rw [if_neg hs] at hb
    have hle : (if (lookupAssoc (processDir ctx tree s path).1.langCache
          p).isSome = true ∧ (lookupAssoc s.langCache p).isSome = false
        then 1 else 0)
        ≤ (if (lookupAssoc (processDir ctx tree s path).1.langCache
            p).isSome = true then 1 else 0) := by
      split
      · rename_i hcon
        rw [if_pos hcon.1]
      · exact Nat.zero_le _
    omega

/-! ## Geometry of the forest: subtrees are separated by their head names -/

theorem dirNames_cons (e : FSEntry) (rest : FSList) :
    dirNames (.cons e rest)
      = if e.isDir = true then e.name :: dirNames rest else dirNames rest := by
  by_cases h : e.isDir = true
  · simp [dirNames, FSList.toList, List.filter_cons, h]
  · simp [dirNames, FSList.toList, List.filter_cons, h]

theorem dirNamesNodup_prop {l : FSList} (h : dirNamesNodup l = true) :
    (dirNames l).Nodup := of_decide_eq_true h

theorem dirNames_nodup_rest {e : FSEntry} {rest : FSList}
    (h : (dirNames (.cons e rest)).Nodup) : (dirNames rest).Nodup := by
  rw [dirNames_cons] at h
  split at h
  · exact (List.nodup_cons.mp h).2
  · exact h

theorem same_parent_prefix_eq {parent : Path} {a b : Name} {q : Path}
    (h1 : (parent ++ [a]) <+: q) (h2 : (parent ++ [b]) <+: q) : a = b := by
  have hlen : (parent ++ [a]).length = (parent ++ [b]).length := by simp
  have h3 : (parent ++ [a]) <+: (parent ++ [b]) :=
    List.prefix_of_prefix_length_le h1 h2 (le_of_eq hlen)
  have h4 := List.IsPrefix.eq_of_length h3 hlen
  have h5 := List.append_cancel_left h4
  simpa using h5

theorem Sep_mono {A B A2 B2 : List Path} (hA : ∀ p ∈ A2, p ∈ A)
    (hB : ∀ r ∈ B2, r ∈ B) (h : Sep A B) : Sep A2 B2 :=
  fun p hp r hr => h p (hA p hp) r (hB r hr)

theorem sep_append_right {A B1 B2 : List Path} (h1 : Sep A B1)
    (h2 : Sep A B2) : Sep A (B1 ++ B2) := by
  intro p hp r hr
  rcases List.mem_append.mp hr with h | h
  · exact h1 p hp r h
  · exact h2 p hp r h

/-- Every path in an entry's subtree starts with the entry's name (and the
entry is a directory); every path in a forest starts with one of the
forest's directory names. -/
theorem paths_shape :
    (∀ (parent : Path) (e : FSEntry), ∀ q ∈ entryPaths parent e,
      e.isDir = true ∧ (parent ++ [e.name]) <+: q
        ∧ parent.length < q.length)
    ∧ (∀ (parent : Path) (l : FSList), ∀ q ∈ levelPaths parent l,
      ∃ nm ∈ dirNames l, (parent ++ [nm]) <+: q
        ∧ parent.length < q.length) := by
  have c1 : ∀ (parent : Path) (n : Name) (sz mt : Nat),
      ∀ q ∈ entryPaths parent (.file n sz mt),
        (FSEntry.file n sz mt).isDir = true
        ∧ (parent ++ [(FSEntry.file n sz mt).name]) <+: q
        ∧ parent.length < q.length := by
    intro parent n sz mt q hq
    simp [entryPaths] at hq
  have c2 : ∀ (parent : Path) (n : Name) (u : Bool) (cs : FSList),
      (∀ q ∈ levelPaths (parent ++ [n]) cs,
        ∃ nm ∈ dirNames cs, ((parent ++ [n]) ++ [nm]) <+: q
          ∧ (parent ++ [n]).length < q.length) →
      ∀ q ∈ entryPaths parent (.dir n u cs),
        (FSEntry.dir n u cs).isDir = true
        ∧ (parent ++ [(FSEntry.dir n u cs).name]) <+: q
        ∧ parent.length < q.length := by
    intro parent n u cs ih q hq
    simp only [entryPaths] at hq
    rcases List.mem_cons.mp hq with h | h
    · subst h
      refine ⟨rfl, List.prefix_refl _, ?_⟩
      simp
    · obtain ⟨nm, hnm, hpre, hlen⟩ := ih q h
      refine ⟨rfl, (List.prefix_append (parent ++ [n]) [nm]).trans hpre, ?_⟩
      simp only [List.length_append, List.length_cons, List.length_nil]
        at hlen ⊢
      omega
  have c3 : ∀ parent : Path, ∀ q ∈ levelPaths parent .nil,
      ∃ nm ∈ dirNames .nil, (parent ++ [nm]) <+: q
        ∧ parent.length < q.length := by
    intro parent q hq
    simp [levelPaths] at hq
  have c4 : ∀ (parent : Path) (e : FSEntry) (rest : FSList),
      (∀ q ∈ entryPaths parent e,
        e.isDir = true ∧ (parent ++ [e.name]) <+: q
          ∧ parent.length < q.length) →
      (∀ q ∈ levelPaths parent rest,
        ∃ nm ∈ dirNames rest, (parent ++ [nm]) <+: q
          ∧ parent.length < q.length) →
      ∀ q ∈ levelPaths parent (.cons e rest),
        ∃ nm ∈ dirNames (.cons e rest), (parent ++ [nm]) <+: q
          ∧ parent.length < q.length := by
    intro parent e rest ih1 ih2 q hq
    simp only [levelPaths] at hq
    rcases List.mem_append.mp hq with h | h
    · obtain ⟨hdir, hpre, hlen⟩ := ih1 q h
      refine ⟨e.name, ?_, hpre, hlen⟩
      rw [dirNames_cons, if_pos hdir]
      exact List.mem_cons_self _ _
    · obtain ⟨nm, hnm, hpre, hlen⟩ := ih2 q h
      refine ⟨nm, ?_, hpre, hlen⟩
      rw [dirNames_cons]
      split
      · exact List.mem_cons_of_mem _ hnm
      · exact hnm
  exact ⟨entryPaths.induct
      (fun parent e => ∀ q ∈ entryPaths parent e,
        e.isDir = true ∧ (parent ++ [e.name]) <+: q
          ∧ parent.length < q.length)
      (fun parent l => ∀ q ∈ levelPaths parent l,
        ∃ nm ∈ dirNames l, (parent ++ [nm]) <+: q
          ∧ parent.length < q.length)
      c1 c2 c3 c4,
    levelPaths.induct
      (fun parent e => ∀ q ∈ entryPaths parent e,
        e.isDir = true ∧ (parent ++ [e.name]) <+: q
          ∧ parent.length < q.length)
      (fun parent l => ∀ q ∈ levelPaths parent l,
        ∃ nm ∈ dirNames l, (parent ++ [nm]) <+: q
          ∧ parent.length < q.length)
      c1 c2 c3 c4⟩

/-- Sibling subtrees share no prefix relation (distinct head names). -/
theorem sep_entry_level (parent : Path) (e : FSEntry) (rest : FSList)
    (hnd : (dirNames (.cons e rest)).Nodup) :
    Sep (entryPaths parent e) (levelPaths parent rest) := by
  intro p hp r hr
  obtain ⟨hdir, hpre, hlen⟩ := paths_shape.1 parent e p hp
  obtain ⟨nm, hnm, hpre2, hlen2⟩ := paths_shape.2 parent rest r hr
  have hne : e.name ≠ nm := by
    intro h
    rw [dirNames_cons, if_pos hdir] at hnd
    exact (List.nodup_cons.mp hnd).1 (h ▸ hnm)
  constructor
  · intro hpr
    exact hne (same_parent_prefix_eq (hpre.trans hpr) hpre2)
  · intro hrp
    exact hne (same_parent_prefix_eq hpre (hpre2.trans hrp))

theorem mem_level_not_prefix_parent {parent : Path} {l : FSList} {q : Path}
    (h : q ∈ levelPaths parent l) : ¬ q <+: parent := by
  obtain ⟨nm, -, -, hlen⟩ := paths_shape.2 parent l q h
  intro hq
  have := hq.length_le
  omega

theorem mem_level_ne_parent {parent : Path} {l : FSList} {q : Path}
    (h : q ∈ levelPaths parent l) : q ≠ parent := by
  obtain ⟨nm, -, -, hlen⟩ := paths_shape.2 parent l q h
  intro he
  rw [he] at hlen
  exact lt_irrefl _ hlen

/-- The safety and reach invariants survive one callback invocation on a
node `path` of the pending forest `F` (with `G` the walk's remainder). -/
theorem pd_step (ctx : Ctx) (tree : FSList) (s : St) (path : Path)
    (F G : List Path) (hpathF : path ∈ F) (hp : path ≠ [])
    (hsep : Sep F G)
    (h3 : ∀ q ∈ s.visited, ∀ r ∈ F ++ G, ¬ r <+: q)
    (hanc : ∀ q, q ≠ [] → q <+: path → q ≠ path → q ∈ s.visited)
    (hsafe : Safe s) (hreach : Reach s (F ++ G))
    (hfp : FPaths s) (hds : DSv s) (hk : Keys s) :
    Safe (processDir ctx tree s path).1
    ∧ Reach (processDir ctx tree s path).1 G
    ∧ ((processDir ctx tree s path).2 = false →
        Reach (processDir ctx tree s path).1 (F ++ G))
    ∧ Keys (processDir ctx tree s path).1
    ∧ FPaths (processDir ctx tree s path).1
    ∧ DSv (processDir ctx tree s path).1
    ∧ (NoGitPattern ctx → WInv s → WInv (processDir ctx tree s path).1) := by
  have hfreshv : path ∉ s.visited := fun hmem =>
    h3 path hmem path (List.mem_append_left _ hpathF) (List.prefix_refl _)
  have hstate := processDir_state ctx tree s path hp hanc hfreshv hk hfp hds
  refine ⟨?_, ?_, ?_, hstate.1, hstate.2.1, hstate.2.2.1, hstate.2.2.2⟩
  · intro f hf hpat q hq
    rw [processDir_visited] at hq
    rcases processDir_findings ctx tree s path f hf with hold | ⟨hpt, -, -⟩ |
      ⟨hfpath, hskip⟩
    · rcases List.mem_append.mp hq with hqo | hqp
      · exact hsafe f hold hpat q hqo
      · have hqp2 : q = path := List.mem_singleton.mp hqp
        intro hcon
        exact hreach f hold hpat path (List.mem_append_left _ hpathF)
          (hqp2 ▸ hcon.1)
    · exact absurd hpt hpat
    · rw [hfpath]
      intro hcon
      rcases List.mem_append.mp hq with hqo | hqp
      · exact h3 q hqo path (List.mem_append_left _ hpathF) hcon.1
      · exact hcon.2 (List.mem_singleton.mp hqp).symm
  · intro f hf hpat r hr
    rcases processDir_findings ctx tree s path f hf with hold | ⟨hpt, -, -⟩ |
      ⟨hfpath, hskip⟩
    · exact hreach f hold hpat r (List.mem_append_right _ hr)
    · exact absurd hpt hpat
    · rw [hfpath]
      exact (hsep path hpathF r hr).1
  · intro hns f hf hpat r hr
    rcases processDir_findings ctx tree s path f hf with hold | ⟨hpt, -, -⟩ |
      ⟨hfpath, hskip⟩
    · exact hreach f hold hpat r hr
    · exact absurd hpt hpat
    · rw [hns] at hskip
      exact absurd hskip Bool.false_ne_true

/-- The master walk induction: over a well-formed forest the walk visits
each directory at most once, never revisits or descends below a reported
cache match, keeps every finding/cache/scan record at root-or-visited
paths, and (absent a `.git` cache pattern) never rewrites a cache
entry. -/
theorem walk_master (ctx : Ctx) (tree : FSList) :
    (∀ (e : FSEntry) (parent : Path) (s : St),
      EntryOut ctx tree e parent s)
    ∧ (∀ (l : FSList) (parent : Path) (s : St),
      LevelOut ctx tree l parent s) := by
  have c1 : ∀ (parent : Path) (s : St) (n : Name) (sz mt : Nat),
      EntryOut ctx tree (.file n sz mt) parent s := by
    intro parent s n sz mt
    unfold EntryOut
    intro hwf G hsep h3 hA hsafe hreach hfp hds hk
    have hwe : walkEntry ctx tree (.file n sz mt) parent s = s := by
      simp [walkEntry]
    rw [hwe]
    refine ⟨⟨[], by simp, by simp, List.nodup_nil⟩, hsafe, ?_, hfp, hds, hk,
      fun _ h => h⟩
    intro f hf hpat r hr
    exact hreach f hf hpat r (List.mem_append_right _ hr)
  have c2 : ∀ (parent : Path) (s : St) (n : Name) (u : Bool) (cs : FSList),
      (processDir ctx tree s (parent ++ [n])).2 = true →
      EntryOut ctx tree (.dir n u cs) parent s := by
    intro parent s n u cs hskip
    unfold EntryOut
    intro hwf G hsep h3 hA hsafe hreach hfp hds hk
    have hwe : walkEntry ctx tree (.dir n u cs) parent s
        = (processDir ctx tree s (parent ++ [n])).1 := by
      simp only [walkEntry, hskip, if_true]
    rw [hwe]
    have hpathF : parent ++ [n] ∈ entryPaths parent (.dir n u cs) := by
      simp only [entryPaths]
      exact List.mem_cons_self _ _
    have hanc : ∀ q, q ≠ [] → q <+: parent ++ [n] → q ≠ parent ++ [n] →
        q ∈ s.visited := by
      intro q hq hqp hqne
      rcases List.prefix_concat_iff.mp hqp with h | h
      · exact absurd h hqne
      · exact hA q hq h
    have hstep := pd_step ctx tree s (parent ++ [n])
      (entryPaths parent (.dir n u cs)) G hpathF (by simp) hsep h3 hanc
      hsafe hreach hfp hds hk
    refine ⟨⟨[parent ++ [n]], processDir_visited _ _ _ _, ?_,
        List.nodup_singleton _⟩,
      hstep.1, hstep.2.1, hstep.2.2.2.2.1, hstep.2.2.2.2.2.1,
      hstep.2.2.2.1, hstep.2.2.2.2.2.2⟩
    intro q hq
    rw [List.mem_singleton.mp hq]
    exact hpathF
  have c3 : ∀ (parent : Path) (s : St) (n : Name) (cs : FSList),
      ¬(processDir ctx tree s (parent ++ [n])).2 = true →
      EntryOut ctx tree (.dir n true cs) parent s := by
    intro parent s n cs hskip
    unfold EntryOut
    intro hwf G hsep h3 hA hsafe hreach hfp hds hk
    have hwe : walkEntry ctx tree (.dir n true cs) parent s
        = (processDir ctx tree s (parent ++ [n])).1 := by
      simp [walkEntry, hskip]
    rw [hwe]
    have hpathF : parent ++ [n] ∈ entryPaths parent (.dir n true cs) := by
      simp only [entryPaths]
      exact List.mem_cons_self _ _
    have hanc : ∀ q, q ≠ [] → q <+: parent ++ [n] → q ≠ parent ++ [n] →
        q ∈ s.visited := by
      intro q hq hqp hqne
      rcases List.prefix_concat_iff.mp hqp with h | h
      · exact absurd h hqne
      · exact hA q hq h
    have hstep := pd_step ctx tree s (parent ++ [n])
      (entryPaths parent (.dir n true cs)) G hpathF (by simp) hsep h3 hanc
      hsafe hreach hfp hds hk
    refine ⟨⟨[parent ++ [n]], processDir_visited _ _ _ _, ?_,
        List.nodup_singleton _⟩,
      hstep.1, hstep.2.1, hstep.2.2.2.2.1, hstep.2.2.2.2.2.1,
      hstep.2.2.2.1, hstep.2.2.2.2.2.2⟩
    intro q hq
    rw [List.mem_singleton.mp hq]
    exact hpathF
  have c4 : ∀ (parent : Path) (s : St) (n : Name) (u : Bool) (cs : FSList),
      ¬(processDir ctx tree s (parent ++ [n])).2 = true →
      ¬u = true →
      LevelOut ctx tree cs (parent ++ [n])
        (processDir ctx tree s (parent ++ [n])).1 →
      EntryOut ctx tree (.dir n u cs) parent s := by
    intro parent s n u cs hskip hu ih
    unfold EntryOut
    intro hwf G hsep h3 hA hsafe hreach hfp hds hk
    have hwe : walkEntry ctx tree (.dir n u cs) parent s
        = walkEntries ctx tree cs (parent ++ [n])
            (processDir ctx tree s (parent ++ [n])).1 := by
      simp [walkEntry, hskip, hu]
    rw [hwe]
    have hpathF : parent ++ [n] ∈ entryPaths parent (.dir n u cs) := by
      simp only [entryPaths]
      exact List.mem_cons_self _ _
    have hanc : ∀ q, q ≠ [] → q <+: parent ++ [n] → q ≠ parent ++ [n] →
        q ∈ s.visited := by
      intro q hq hqp hqne
      rcases List.prefix_concat_iff.mp hqp with h | h
      · exact absurd h hqne
      · exact hA q hq h
    have hstep := pd_step ctx tree s (parent ++ [n])
      (entryPaths parent (.dir n u cs)) G hpathF (by simp) hsep h3 hanc
      hsafe hreach hfp hds hk
    have hwf2 : (dirNamesNodup cs && FSList.wfAll cs) = true := hwf
    unfold LevelOut at ih
    have hvis1 := processDir_visited ctx tree s (parent ++ [n])
    have hsub : ∀ p ∈ levelPaths (parent ++ [n]) cs,
        p ∈ entryPaths parent (.dir n u cs) := by
      intro p hp2
      simp only [entryPaths]
      exact List.mem_cons_of_mem _ hp2
    have hsep2 : Sep (levelPaths (parent ++ [n]) cs) G :=
      Sep_mono hsub (fun r hr => hr) hsep
    have h32 : ∀ q ∈ (processDir ctx tree s (parent ++ [n])).1.visited,
        ∀ r ∈ levelPaths (parent ++ [n]) cs ++ G, ¬ r <+: q := by
      intro q hq r hr
      rw [hvis1] at hq
      rcases List.mem_append.mp hq with hqo | hqp
      · rcases List.mem_append.mp hr with hrl | hrg
        · exact h3 q hqo r (List.mem_append_left _ (hsub r hrl))
        · exact h3 q hqo r (List.mem_append_right _ hrg)
      · have hqp2 := List.mem_singleton.mp hqp
        subst hqp2
        rcases List.mem_append.mp hr with hrl | hrg
        · exact mem_level_not_prefix_parent hrl
        · exact (hsep (parent ++ [n]) hpathF r hrg).2
    have hA2 : ∀ q, q ≠ [] → q <+: parent ++ [n] →
        q ∈ (processDir ctx tree s (parent ++ [n])).1.visited := by
      intro q hq hqp
      rw [hvis1]
      rcases List.prefix_concat_iff.mp hqp with h | h
      · rw [h]
        exact List.mem_append_right _ (List.mem_singleton_self _)
      · exact List.mem_append_left _ (hA q hq h)
    have hskipf : (processDir ctx tree s (parent ++ [n])).2 = false :=
      Bool.eq_false_iff.mpr hskip
    have hreach2 : Reach (processDir ctx tree s (parent ++ [n])).1
        (levelPaths (parent ++ [n]) cs ++ G) := by
      intro f hf hpat r hr
      have hrf := hstep.2.2.1 hskipf f hf hpat
      rcases List.mem_append.mp hr with hrl | hrg
      · exact hrf r (List.mem_append_left _ (hsub r hrl))
      · exact hrf r (List.mem_append_right _ hrg)
    have hih := ih hwf2 G hsep2 h32 hA2 hstep.1 hreach2
      hstep.2.2.2.2.1 hstep.2.2.2.2.2.1 hstep.2.2.2.1
    obtain ⟨⟨V2, hV2eq, hV2sub, hV2nd⟩, hS, hR, hF, hD, hK2, hW⟩ := hih
    refine ⟨⟨(parent ++ [n]) :: V2, ?_, ?_, ?_⟩, hS, hR, hF, hD, hK2, ?_⟩
    · rw [hV2eq, hvis1, List.append_assoc]
      rfl
    · intro q hq
      rcases List.mem_cons.mp hq with h | h
      · rw [h]
        exact hpathF
      · exact hsub q (hV2sub q h)
    · rw [List.nodup_cons]
      refine ⟨?_, hV2nd⟩
      intro hmem
      exact mem_level_ne_parent (hV2sub _ hmem) rfl
    · intro hgit hWs
      exact hW hgit (hstep.2.2.2.2.2.2 hgit hWs)
  have c5 : ∀ (parent : Path) (s : St),
      LevelOut ctx tree .nil parent s := by
    intro parent s
    unfold LevelOut
    intro hwf G hsep h3 hA hsafe hreach hfp hds hk
    have hwe : walkEntries ctx tree .nil parent s = s := by
      simp [walkEntries]
    rw [hwe]
    refine ⟨⟨[], by simp, by simp, List.nodup_nil⟩, hsafe, ?_, hfp, hds, hk,
      fun _ h => h⟩
    intro f hf hpat r hr
    exact hreach f hf hpat r (List.mem_append_right _ hr)
  have c6 : ∀ (parent : Path) (s : St) (e : FSEntry) (rest : FSList),
      EntryOut ctx tree e parent s →
      LevelOut ctx tree rest parent (walkEntry ctx tree e parent s) →
      LevelOut ctx tree (.cons e rest) parent s := by
    intro parent s e rest ih1 ih2
    unfold LevelOut at ih2 ⊢
    unfold EntryOut at ih1
    intro hwf G hsep h3 hA hsafe hreach hfp hds hk
    have hwe : walkEntries ctx tree (.cons e rest) parent s
        = walkEntries ctx tree rest parent (walkEntry ctx tree e parent s)
        := by
      simp only [walkEntries]
    rw [hwe]
    have hwf2 : dirNamesNodup (.cons e rest) = true
        ∧ FSEntry.wf e = true ∧ FSList.wfAll rest = true := by
      have h := hwf
      simp only [FSList.wfAll, Bool.and_eq_true] at h
      exact ⟨h.1, h.2.1, h.2.2⟩
    have hnd := dirNamesNodup_prop hwf2.1
    have hndrest : dirNamesNodup rest = true :=
      decide_eq_true (dirNames_nodup_rest hnd)
    have hwfrest : (dirNamesNodup rest && FSList.wfAll rest) = true := by
      rw [hndrest, hwf2.2.2]
      rfl
    have hsubE : ∀ p ∈ entryPaths parent e,
        p ∈ levelPaths parent (.cons e rest) := by
      intro p hp2
      simp only [levelPaths]
      exact List.mem_append_left _ hp2
    have hsubL : ∀ p ∈ levelPaths parent rest,
        p ∈ levelPaths parent (.cons e rest) := by
      intro p hp2
      simp only [levelPaths]
      exact List.mem_append_right _ hp2
    have hsepEL := sep_entry_level parent e rest hnd
    have hsep1 : Sep (entryPaths parent e) (levelPaths parent rest ++ G) :=
      sep_append_right hsepEL (Sep_mono hsubE (fun r hr => hr) hsep)
    have hmm : ∀ r,
        r ∈ entryPaths parent e ++ (levelPaths parent rest ++ G) →
        r ∈ levelPaths parent (.cons e rest) ++ G := by
      intro r hr
      rcases List.mem_append.mp hr with h | h
      · exact List.mem_append_left _ (hsubE r h)
      · rcases List.mem_append.mp h with h | h
        · exact List.mem_append_left _ (hsubL r h)
        · exact List.mem_append_right _ h
    have h31 : ∀ q ∈ s.visited,
        ∀ r ∈ entryPaths parent e ++ (levelPaths parent rest ++ G),
          ¬ r <+: q :=
      fun q hq r hr => h3 q hq r (hmm r hr)
    have hreach1 : Reach s
        (entryPaths parent e ++ (levelPaths parent rest ++ G)) :=
      fun f hf hpat r hr => hreach f hf hpat r (hmm r hr)
    have hih1 := ih1 hwf2.2.1 (levelPaths parent rest ++ G) hsep1 h31 hA
      hsafe hreach1 hfp hds hk
    obtain ⟨⟨V1, hV1eq, hV1sub, hV1nd⟩, hS1, hR1, hF1, hD1, hK1, hW1⟩ := hih1
    have h32 : ∀ q ∈ (walkEntry ctx tree e parent s).visited,
        ∀ r ∈ levelPaths parent rest ++ G, ¬ r <+: q := by
      intro q hq r hr
      rw [hV1eq] at hq
      rcases List.mem_append.mp hq with hqo | hqv
      · refine h3 q hqo r ?_
        rcases List.mem_append.mp hr with h | h
        · exact List.mem_append_left _ (hsubL r h)
        · exact List.mem_append_right _ h
      · have hqE := hV1sub q hqv
        rcases List.mem_append.mp hr with h | h
        · exact (hsepEL q hqE r h).2
        · exact (hsep q (hsubE q hqE) r h).2
    have hA2 : ∀ q, q ≠ [] → q <+: parent →
        q ∈ (walkEntry ctx tree e parent s).visited := by
      intro q hq hqp
      rw [hV1eq]
      exact List.mem_append_left _ (hA q hq hqp)
    have hsep2 : Sep (levelPaths parent rest) G :=
      Sep_mono hsubL (fun r hr => hr) hsep
    have hih2 := ih2 hwfrest G hsep2 h32 hA2 hS1 hR1 hF1 hD1 hK1
    obtain ⟨⟨V2, hV2eq, hV2sub, hV2nd⟩, hS2, hR2, hF2, hD2, hK2, hW2⟩ := hih2
    refine ⟨⟨V1 ++ V2, ?_, ?_, ?_⟩, hS2, hR2, hF2, hD2, hK2, ?_⟩
    · rw [hV2eq, hV1eq, List.append_assoc]
    · intro q hq
      rcases List.mem_append.mp hq with h | h
      · exact hsubE q (hV1sub q h)
      · exact hsubL q (hV2sub q h)
    · refine List.Nodup.append hV1nd hV2nd ?_
      intro q hq1 hq2
      exact (hsepEL q (hV1sub q hq1) q (hV2sub q hq2)).1
        (List.prefix_refl _)
    · intro hgit hWs
      exact hW2 hgit (hW1 hgit hWs)
  exact ⟨walkEntry.induct ctx tree
      (fun e parent s => EntryOut ctx tree e parent s)
      (fun l parent s => LevelOut ctx tree l parent s)
      c1 c2 c3 c4 c5 c6,
    walkEntries.induct ctx tree
      (fun e parent s => EntryOut ctx tree e parent s)
      (fun l parent s => LevelOut ctx tree l parent s)
      c1 c2 c3 c4 c5 c6⟩

theorem trailing_pat (s : St) : ∀ f ∈ trailingFindings s, f.pattern = [] := by
  intro f hf
  unfold trailingFindings at hf
  rcases List.mem_map.mp hf with ⟨r, hr, heq⟩
  rw [← heq]

theorem trailing_path (s : St) :
    ∀ f ∈ trailingFindings s, f.path ∈ s.depth0Scanned := by
  intro f hf
  unfold trailingFindings at hf
  rcases List.mem_map.mp hf with ⟨r, hr, heq⟩
  rw [← heq]
  exact List.mem_of_mem_filter hr

/-- The walk-level invariants, instantiated at a whole well-formed scan. -/
theorem scan_walk_facts (ctx : Ctx) (tree : FSList)
    (htree : treeWF tree = true) :
    Safe (walkEntries ctx tree tree [] St.init)
    ∧ FPaths (walkEntries ctx tree tree [] St.init)
    ∧ DSv (walkEntries ctx tree tree [] St.init)
    ∧ (walkEntries ctx tree tree [] St.init).visited.Nodup
    ∧ (NoGitPattern ctx → WInv (walkEntries ctx tree tree [] St.init)) := by
  have hm := (walk_master ctx tree).2 tree [] St.init
  unfold LevelOut at hm
  have hout := hm htree []
    (fun p hp r hr => absurd hr (List.not_mem_nil r))
    (fun q hq => absurd hq (List.not_mem_nil q))
    (fun q hq hqp => absurd (List.prefix_nil.mp hqp) hq)
    (fun f hf => absurd hf (List.not_mem_nil f))
    (fun f hf => absurd hf (List.not_mem_nil f))
    (fun f hf => absurd hf (List.not_mem_nil f))
    (fun r hr => absurd hr (List.not_mem_nil r))
    (fun p hps => by simp [lookupAssoc, St.init] at hps)
  obtain ⟨⟨V, hVeq, hVsub, hVnd⟩, hS, hR, hF, hD, hK, hW⟩ := hout
  refine ⟨hS, hF, hD, ?_, fun hgit => hW hgit ?_⟩
  · rw [hVeq]
    exact hVnd
  · exact ⟨List.nodup_nil, fun p hp => absurd hp (List.not_mem_nil p)⟩

/-! ## Closed claim scenarios -/

/-- **C1.** Scan of `treeVendor` at `maxDepth = 0`: the depth-0 directory
`vendor` matches the configured pattern set, so the scanner takes the scan
root as its project root, resolves the root's language to `node`, narrows
the patterns to `node`'s — under which `vendor` no longer matches — and then
never reports `vendor` at all: the only Finding produced is a bogus one for
the scan root itself.  `vendor` is a depth-0 directory within `maxDepth`
appearing in zero Findings, contradicting the claim (and the code's own
intent of tracking "all depth 0 directories that were scanned",
main.go:547/814-815). -/
theorem C1_depth0_dir_in_no_finding :
    scanDirectory (ctxNodeGo 0) treeVendor =
      [{ path := [], projectRoot := [], sizeBytes := 0, items := 0,
         pattern := [], language := str "node", err := false, modMax := 0 }]
    ∧ (scanDirectory (ctxNodeGo 0) treeVendor).countP
        (fun f => List.isPrefixOf [str "vendor"] f.path) = 0 := by
  constructor
  · decide
  · decide

/-- **C4 counterexample.** In the same configuration at `maxDepth = 1`,
`vendor`'s name matches an enabled cache pattern of the configured set, yet
the scanner descends into it: the directory `vendor/sub` strictly inside it
is visited by the walk (because the effective pattern set at `vendor` was
narrowed to `node`'s patterns, under which `vendor` does not match, so no
`SkipDir` is returned). -/
theorem C4_counterexample_descends_into_configured_match :
    (ctxNodeGo 1).patterns.any (matchPattern (str "vendor")) = true
    ∧ [str "vendor", str "sub"] ∈ (scanSt (ctxNodeGo 1) treeVendorSub).visited
    := by
  constructor
  · decide
  · decide

/-- **C2 counterexample.** In one scan of `treeC2` (entries in the
lexical order `filepath.WalkDir` visits): the classifier is invoked twice
on the same directory `proj` (the project-root probe whose empty result
is cached, then the local nested-project probe of main.go:679-689, which
does not consult the cache and does not cache its empty result); and the
scan root's cache entry is first written `node` (when the cache directory
`.a`, visited before `.git`, classifies the root) and later overwritten
to empty when the depth-0 `.git` — which matches a configured pattern and
therefore gets the scan root as its project root — is marked excluded
(main.go:651-652).  Both parts of the claim fail. -/
theorem C2_counterexample_double_probe_and_overwrite :
    (scanSt ctxC2 treeC2).probes.countP
        (fun q => decide (q = [str "proj"])) = 2
    ∧ (scanSt ctxC2 treeC2).cacheWrites.filter
        (fun w => decide (w.1 = ([] : Path))) =
        [([], str "node"), ([], [])] := by
  constructor
  · decide
  · decide

/-- **C6 counterexample.** The cache-match Finding for the depth-0
directory `node_modules` has `projectRoot` equal to the scan root `[]`
(main.go:625-628), not to its own path as the claim states. -/
theorem C6_counterexample_depth0_projectRoot :
    (scanDirectory (ctxNode 1) treeDepth0Cache).map
        (fun f => (f.path, f.projectRoot)) =
      [([str "node_modules"], ([] : Path))] := by
  decide

/-- **C8 counterexample.** Scanning a tree with an unreadable directory
completes and still reports the sibling cache directory — but the warnings
accompanying the findings are empty: `scanDirectory` returns only the
finding list (main.go:527), the callback swallows traversal errors
(main.go:555-557), and `Report.Warnings` is initialized empty and never
appended to (main.go:335).  No warning is surfaced, contradicting the
claim's warning clause. -/
theorem C8_counterexample_no_warning_surfaced :
    (findDirNode [str "noread"] treeUnreadable).any FSEntry.isUnreadableDir
      = true
    ∧ (runScan ctxPlain treeUnreadable).warnings = []
    ∧ (runScan ctxPlain treeUnreadable).findings =
      [{ path := [str "node_modules"], projectRoot := [],
         sizeBytes := 5, items := 1, pattern := str "node_modules",
         language := str "node", err := false, modMax := 1 }] := by
  refine ⟨by decide, rfl, by decide⟩

/-- **C10.** The fixed exclusion set is exactly `{".git"}`
(main.go:532-534), and on a root holding depth-0 `.git` and `.svn`
directories (no markers, no cache matches) the scan reports `.svn` with
language `"no language found"` while `.git` gets a Finding with empty
language. -/
theorem C10_exclusion_set_is_git_only :
    (∀ n : Name, n ∈ excludedFromLanguageDetection ↔ n = str ".git")
    ∧ scanDirectory (ctxNode 1) treeVcs =
      [{ path := [str ".svn"], projectRoot := [str ".svn"], sizeBytes := 0,
         items := 0, pattern := [], language := str "no language found",
         err := false, modMax := 0 },
       { path := [str ".git"], projectRoot := [str ".git"], sizeBytes := 0,
         items := 0, pattern := [], language := [], err := false,
         modMax := 0 }] := by
  constructor
  · intro n
    simp [excludedFromLanguageDetection]
  · decide

/-! ## The universal claims settled through the walk induction -/

/-- **C4 (as amended).**  For every directory visited during a scan of a
well-formed tree, if a cache-match finding (non-empty `pattern`) is
emitted for it, the scanner never descends into it: no visited directory
lies strictly below the finding's path. -/
theorem C4_amended_no_descend_into_cache_finding :
    ∀ (ctx : Ctx) (tree : FSList), treeWF tree = true →
    ∀ f ∈ scanDirectory ctx tree, f.pattern ≠ [] →
    ∀ q ∈ (scanSt ctx tree).visited, ¬(f.path <+: q ∧ f.path ≠ q) := by
  intro ctx tree htree f hf hpat q hq
  have hfacts := scan_walk_facts ctx tree htree
  have hsplit : scanDirectory ctx tree
      = (walkEntries ctx tree tree [] St.init).findings
        ++ trailingFindings (walkEntries ctx tree tree [] St.init) := rfl
  rw [hsplit] at hf
  rcases List.mem_append.mp hf with h | h
  · exact hfacts.1 f h hpat q hq
  · exact absurd (trailing_pat _ f h) hpat

theorem C4_amended_no_descend_into_cache_finding_witness :
    treeWF treeDepth0Cache = true
    ∧ ¬(([str "node_modules"] : Path) <+: [str "node_modules"]
        ∧ ([str "node_modules"] : Path) ≠ [str "node_modules"]) :=
  ⟨by decide,
    C4_amended_no_descend_into_cache_finding (ctxNode 1) treeDepth0Cache
      (by decide)
      { path := [str "node_modules"], projectRoot := [], sizeBytes := 3,
        items := 1, pattern := str "node_modules", language := str "node",
        err := false, modMax := 2 }
      (by decide) (by decide) [str "node_modules"] (by decide)⟩

/-- **C5.**  In a scan of a well-formed tree, no finding's path is a
strict descendant of a cache-match finding's path (the pruning property
of spec section 8). -/
theorem C5_no_finding_under_cache_match :
    ∀ (ctx : Ctx) (tree : FSList), treeWF tree = true →
    ∀ g ∈ scanDirectory ctx tree, g.pattern ≠ [] →
    ∀ f ∈ scanDirectory ctx tree,
      ¬(g.path <+: f.path ∧ g.path ≠ f.path) := by
  intro ctx tree htree g hg hgpat f hf
  have hfacts := scan_walk_facts ctx tree htree
  have hsplit : scanDirectory ctx tree
      = (walkEntries ctx tree tree [] St.init).findings
        ++ trailingFindings (walkEntries ctx tree tree [] St.init) := rfl
  have hg2 : g ∈ (walkEntries ctx tree tree [] St.init).findings := by
    rw [hsplit] at hg
    rcases List.mem_append.mp hg with h | h
    · exact h
    · exact absurd (trailing_pat _ g h) hgpat
  have hfpath : f.path = []
      ∨ f.path ∈ (walkEntries ctx tree tree [] St.init).visited := by
    rw [hsplit] at hf
    rcases List.mem_append.mp hf with h | h
    · exact hfacts.2.1 f h
    · exact hfacts.2.2.1 f.path (trailing_path _ f h)
  intro hcon
  rcases hfpath with h | h
  · rw [h] at hcon
    have hgnil : g.path = [] := List.prefix_nil.mp hcon.1
    exact hcon.2 hgnil
  · exact hfacts.1 g hg2 hgpat f.path h hcon

theorem C5_no_finding_under_cache_match_witness :
    treeWF treeDepth0Cache = true
    ∧ ¬(([str "node_modules"] : Path) <+: [str "node_modules"]
        ∧ ([str "node_modules"] : Path) ≠ [str "node_modules"]) :=
  ⟨by decide,
    C5_no_finding_under_cache_match (ctxNode 1) treeDepth0Cache (by decide)
      { path := [str "node_modules"], projectRoot := [], sizeBytes := 3,
        items := 1, pattern := str "node_modules", language := str "node",
        err := false, modMax := 2 }
      (by decide) (by decide)
      { path := [str "node_modules"], projectRoot := [], sizeBytes := 3,
        items := 1, pattern := str "node_modules", language := str "node",
        err := false, modMax := 2 }
      (by decide)⟩

/-- **C2 (as amended).**  In a scan of a well-formed tree the classifier
is probed at most twice per directory (at most one cached root-level
classification plus at most one local nested-project probe), and if no
enabled cache pattern matches the name `.git`, a cache entry once written
is never removed or overwritten (the write keys are distinct and every
written key is still present at the end). -/
theorem C2_amended_classifier_probe_bound :
    ∀ (ctx : Ctx) (tree : FSList), treeWF tree = true →
    (∀ p, countPath (scanSt ctx tree).probes p ≤ 2)
    ∧ (NoGitPattern ctx → WInv (scanSt ctx tree)) := by
  intro ctx tree htree
  have hfacts := scan_walk_facts ctx tree htree
  constructor
  · intro p
    have hPI : ProbeInv (walkEntries ctx tree tree [] St.init) := by
      have hpres := (walk_preserves ctx tree ProbeInv
        (fun s path hp hP => processDir_probeInv ctx tree s path hP)).2
      refine hpres tree [] St.init ?_
      intro q
      simp [St.init, countPath, probeBudget, lookupAssoc]
    have h1 := hPI p
    unfold probeBudget at h1
    have h2 : countPath (walkEntries ctx tree tree [] St.init).visited p
        ≤ 1 := countPath_nodup_le_one _ p hfacts.2.2.2.1
    have h3 : (if (lookupAssoc
          (walkEntries ctx tree tree [] St.init).langCache p).isSome = true
        then 1 else 0) ≤ 1 := by
      split
      · exact le_refl 1
      · exact Nat.zero_le 1
    have h0 : countPath (scanSt ctx tree).probes p
        = countPath (walkEntries ctx tree tree [] St.init).probes p := rfl
    rw [h0]
    omega
  · intro hgit
    exact WInv_congr rfl rfl (hfacts.2.2.2.2 hgit)

theorem C2_amended_classifier_probe_bound_witness :
    treeWF treeVendor = true
    ∧ countPath (scanSt (ctxNodeGo 1) treeVendor).probes [str "vendor"]
        ≤ 2 :=
  ⟨by decide,
    (C2_amended_classifier_probe_bound (ctxNodeGo 1) treeVendor
      (by decide)).1 [str "vendor"]⟩

/-- **C8 (as amended).**  The scan surfaces no warnings: the report's
warnings list is empty on every input; and an unreadable directory is
treated exactly as an empty one — the walk of an unreadable directory
with children equals the walk of the same directory with none, so none of
its children are ever visited. -/
theorem C8_amended_unreadable_silent :
    (∀ (ctx : Ctx) (tree : FSList), (runScan ctx tree).warnings = [])
    ∧ (∀ (ctx : Ctx) (tree : FSList) (n : Name) (cs : FSList)
        (parent : Path) (s : St),
        walkEntry ctx tree (.dir n true cs) parent s
          = walkEntry ctx tree (.dir n true FSList.nil) parent s) := by
  constructor
  · intro ctx tree
    rfl
  · intro ctx tree n cs parent s
    by_cases h : (processDir ctx tree s (parent ++ [n])).2 = true
    · simp [walkEntry, h]
    · simp [walkEntry, h]

end DevCache
